import Mathlib

/-!
Palette quantisation (`processing.go`).

A shallow embedding of the Go package `processing`: the colour helpers
(`colorToArray`, `arrayToColor`, `paletteToSlice`), the palette reader
(`HexReader.Read`), the pixel loop (`ConvertImage`) and the two processors
(`naiveProcessor`, `kdTreeProcessor`).

Go values are embedded as follows.

* A `color.Color` is an interface value: the program observes it through its
  `RGBA()` method and, in `color.NRGBAModel`, through a type test for
  `color.NRGBA`.  `Color` therefore has a constructor for `color.NRGBA` and one
  for every other implementation, given by what its `RGBA()` returns.
* `uint8` channels are `Fin 256`, 16-bit channel values are `Fin 65536`;
  `uint32` arithmetic is carried out on `Nat`, reduced modulo `2 ^ 32` where
  the Go code relies on wrap-around (`sqDiff`).
* A Go `string` is its sequence of bytes, `List Nat`.
* The type `int` is 64 bits wide: coordinates are integers between `minInt` and
  `maxInt`, and `x++` wraps around.
* A function that can panic or return `nil` returns an `Option`; a call of an
  interface method returns or panics (`Call`); the loops of `ConvertImage`, which
  need not end, run within a bound on their tests (`Run`).
-/

namespace Processing

/-! ## Colours -/

/-- The struct `color.NRGBA`: non-alpha-premultiplied 8-bit channels. -/
structure NRGBA where
  R : Fin 256
  G : Fin 256
  B : Fin 256
  A : Fin 256
deriving DecidableEq, Repr

/-- A `color.Color` interface value: either a `color.NRGBA`, or a value of any
other colour type, represented by the four alpha-premultiplied 16-bit channels
its `RGBA()` method returns. -/
inductive Color where
  | nrgba (c : NRGBA)
  | other (r g b a : Fin 65536)
deriving DecidableEq, Repr

/-- The conversion `uint8(x)` of an unsigned integer. -/
def toUint8 (x : Nat) : Fin 256 := ⟨x % 256, Nat.mod_lt x (by decide)⟩

/-- One channel of `color.NRGBA.RGBA`: `r = uint32(c.R); r |= r << 8;
r *= uint32(c.A); r /= 0xff`.  The product is at most `0xffff * 0xff`, so the
`uint32` arithmetic does not wrap. -/
def premul (v a : Fin 256) : Nat := ((v.val ||| (v.val <<< 8)) * a.val) / 0xff

/-- The method `color.NRGBA.RGBA`; the alpha is `a = uint32(c.A); a |= a << 8`. -/
def NRGBA.RGBA (c : NRGBA) : Nat × Nat × Nat × Nat :=
  (premul c.R c.A, premul c.G c.A, premul c.B c.A, c.A.val ||| (c.A.val <<< 8))

/-- The method `RGBA()` of the interface `color.Color`. -/
def Color.RGBA : Color → Nat × Nat × Nat × Nat
  | .nrgba c => c.RGBA
  | .other r g b a => (r.val, g.val, b.val, a.val)

/-- The colour `color.NRGBA{r, g, b, 255}`, as `HexReader` produces it. -/
def solid (r g b : Fin 256) : Color := .nrgba ⟨r, g, b, 255⟩

/-- The function `colorToArray`: the four channels of `color.RGBA()`, each
shifted right by eight bits. -/
def colorToArray (color : Color) : List Nat :=
  match color.RGBA with
  | (r, g, b, a) => [r >>> 8, g >>> 8, b >>> 8, a >>> 8]

/-- The function `arrayToColor`: `color.NRGBA{uint8(array[0]), uint8(array[1]),
uint8(array[2]), uint8(array[3])}`.  Indexing a slice with fewer than four
entries panics (`none`); entries after the fourth are not read. -/
def arrayToColor : List Nat → Option Color
  | a0 :: a1 :: a2 :: a3 :: _ =>
    some (.nrgba ⟨toUint8 a0, toUint8 a1, toUint8 a2, toUint8 a3⟩)
  | _ => none

/-- The function `paletteToSlice`: `slice[idx] = colorToArray(color)` for every
entry of the palette, in order. -/
def paletteToSlice (palette : List Color) : List (List Nat) :=
  palette.map colorToArray

/-! ## The palette reader -/

/-- The errors `HexReader.Read` returns.
* `malformedLine line`: `fmt.Errorf("Expected 6 chars per line, got %s", line)`;
* `syntaxError num`, `rangeError num`: the `*strconv.NumError` of
  `strconv.ParseUint`, with `Err` equal to `ErrSyntax` or `ErrRange`, for the
  argument `num`;
* `ioFailure err`: `fmt.Errorf("Error while reading file %s: %w", ...)` around
  the scanner's error `err`. -/
inductive ReadError where
  | malformedLine (line : List Nat)
  | syntaxError (num : List Nat)
  | rangeError (num : List Nat)
  | ioFailure (err : Nat)
deriving DecidableEq, Repr

/-- The helper `lower` of `strconv`: `c | ('x' - 'X')`. -/
def lower (c : Nat) : Nat := c ||| 0x20

/-- The digit switch of `strconv.ParseUint`: `c - '0'` for `'0' <= c <= '9'`,
`lower(c) - 'a' + 10` for `'a' <= lower(c) <= 'z'`, and a syntax error (`none`)
otherwise. -/
def digitOf (c : Nat) : Option Nat :=
  if 48 ≤ c ∧ c ≤ 57 then some (c - 48)
  else if 97 ≤ lower c ∧ lower c ≤ 122 then some (lower c - 97 + 10)
  else none

/-- The digit loop of `strconv.ParseUint(s0, 16, 8)`: `base = 16`,
`maxVal = 1<<8 - 1`, `cutoff = maxUint64/16 + 1`.  An underscore is a digit
separator only for `base == 0`, so here it is a syntax error like every other
byte that is not a digit. -/
def parseDigits (s0 : List Nat) : List Nat → Nat → Except ReadError Nat
  | [], n => .ok n
  | c :: cs, n =>
    match digitOf c with
    | none => .error (.syntaxError s0)
    | some d =>
      if d ≥ 16 then .error (.syntaxError s0)
      else if n ≥ 2 ^ 60 then .error (.rangeError s0)
      else
        let n1 := n * 16 + d
        if n1 > 255 then .error (.rangeError s0)
        else parseDigits s0 cs n1

/-- The call `strconv.ParseUint(s, 16, 8)`: the empty string is a syntax
error. -/
def ParseUint (s : List Nat) : Except ReadError Nat :=
  match s with
  | [] => .error (.syntaxError s)
  | _ => parseDigits s s 0

/-- The Go slice expression `line[i:j]` of a string, for `i <= j <= len(line)`. -/
def substr (line : List Nat) (i j : Nat) : List Nat := (line.drop i).take (j - i)

/-- The body of the scanning loop of `HexReader.Read` for one line: the length
test, then the loop `for i := 0; i < 6; i = i + 2` that parses `line[i:i+2]`
into `rgb[i/2]` and returns at the first error, then
`color.NRGBA{rgb[0], rgb[1], rgb[2], 255}`. -/
def readLine (line : List Nat) : Except ReadError Color :=
  if line.length ≠ 6 then .error (.malformedLine line)
  else
    match ParseUint (substr line 0 2) with
    | .error e => .error e
    | .ok r =>
      match ParseUint (substr line 2 4) with
      | .error e => .error e
      | .ok g =>
        match ParseUint (substr line 4 6) with
        | .error e => .error e
        | .ok b => .ok (.nrgba ⟨toUint8 r, toUint8 g, toUint8 b, 255⟩)

/-- The scanning loop of `HexReader.Read`: `lines` are the tokens the
`bufio.Scanner` still has to deliver, `palette` the colours appended so far. -/
def readLoop : List (List Nat) → List Color → Except ReadError (List Color)
  | [], palette => .ok palette
  | line :: rest, palette =>
    match readLine line with
    | .error e => .error e
    | .ok color => readLoop rest (palette ++ [color])

/-- The method `HexReader.Read`.  The file is seen through its
`bufio.Scanner`: `lines` are the lines `scanner.Text()` delivers, in order,
until `scanner.Scan()` returns false, and `scanErr` is what `scanner.Err()`
returns then (`none` for `nil`, no read fault).  The result is the Go pair
`(color.Palette, error)`, with `none` for `nil`. -/
def HexReader.Read (lines : List (List Nat)) (scanErr : Option Nat) :
    Option (List Color) × Option ReadError :=
  match readLoop lines [] with
  | .error e => (none, some e)
  | .ok palette =>
    match scanErr with
    | some err => (none, some (.ioFailure err))
    | none => (some palette, none)

/-- The bytes of a text, in UTF-8, as Go stores a `string`. -/
def utf8 (s : String) : List Nat :=
  s.data.flatMap fun c => (String.utf8EncodeChar c).map UInt8.toNat


/-! ### Valid lines and the colours they denote -/

/-- A hexadecimal digit, upper or lower case: `0`-`9`, `A`-`F`, `a`-`f`. -/
def isHexDigit (c : Nat) : Prop :=
  (48 ≤ c ∧ c ≤ 57) ∨ (65 ≤ c ∧ c ≤ 70) ∨ (97 ≤ c ∧ c ≤ 102)

instance : DecidablePred isHexDigit := fun c => by
  unfold isHexDigit; infer_instance

/-- The value of a hexadecimal digit. -/
def hexVal (c : Nat) : Nat :=
  if c ≤ 57 then c - 48 else if c ≤ 70 then c - 55 else c - 87

/-- A line of exactly six hexadecimal digits. -/
def validLine (line : List Nat) : Prop :=
  line.length = 6 ∧ ∀ c ∈ line, isHexDigit c

instance : DecidablePred validLine := fun l => by
  unfold validLine; infer_instance

/-- The byte written by the two hexadecimal digits at positions `i` and `i + 1`
of a line. -/
def byteAt (line : List Nat) (i : Nat) : Nat :=
  16 * hexVal (line.getD i 0) + hexVal (line.getD (i + 1) 0)

/-- The colour a valid line denotes: `R`, `G`, `B` are the bytes written by
characters 0-1, 2-3 and 4-5, and alpha is 255. -/
def lineColor (line : List Nat) : Color :=
  solid (toUint8 (byteAt line 0)) (toUint8 (byteAt line 2)) (toUint8 (byteAt line 4))

/-- Whether both characters of a pair are hexadecimal digits. -/
def validPair (s : List Nat) : Prop := ∀ c ∈ s, isHexDigit c

instance : DecidablePred validPair := fun l => by
  unfold validPair; infer_instance

/-- The first of the three pairs `line[0:2]`, `line[2:4]`, `line[4:6]` that is
not made of hexadecimal digits (the last one when there is none). -/
def firstBadPair (line : List Nat) : List Nat :=
  if ¬ validPair (substr line 0 2) then substr line 0 2
  else if ¬ validPair (substr line 2 4) then substr line 2 4
  else substr line 4 6

/-- The error of an invalid line, by the length in bytes: `malformedLine` for a
length other than six, else the syntax error of the first pair that does not
parse. -/
def lineError (line : List Nat) : ReadError :=
  if line.length ≠ 6 then .malformedLine line else .syntaxError (firstBadPair line)



/-! ## Images and the pixel loop -/

/-- The largest value of Go's type `int`, on a 64-bit platform. -/
def maxInt : Int := 9223372036854775807

/-- The smallest value of Go's type `int`, on a 64-bit platform. -/
def minInt : Int := -9223372036854775808

/-- Whether an integer is a value of Go's type `int`. -/
def isInt (n : Int) : Prop := minInt ≤ n ∧ n ≤ maxInt

instance : DecidablePred isInt := fun n => by
  unfold isInt; infer_instance

/-- The value of type `int` that an arithmetic result wraps around to. -/
def wrapInt (n : Int) : Int := (n - minInt) % 18446744073709551616 + minInt

/-- The struct `image.Point`. -/
structure Point where
  X : Int
  Y : Int
deriving DecidableEq, Repr

/-- The struct `image.Rectangle`: it contains the points with
`Min.X <= X < Max.X` and `Min.Y <= Y < Max.Y`. -/
structure Rectangle where
  Min : Point
  Max : Point
deriving DecidableEq, Repr

/-- The method `Point.In`: whether the point is in the rectangle. -/
def Point.In (p : Point) (r : Rectangle) : Prop :=
  r.Min.X ≤ p.X ∧ p.X < r.Max.X ∧ r.Min.Y ≤ p.Y ∧ p.Y < r.Max.Y

instance (p : Point) (r : Rectangle) : Decidable (p.In r) := by
  unfold Point.In; infer_instance

/-- The method `Rectangle.Dx`: `r.Max.X - r.Min.X`, in `int` arithmetic. -/
def Rectangle.Dx (r : Rectangle) : Int := wrapInt (r.Max.X - r.Min.X)

/-- The method `Rectangle.Dy`: `r.Max.Y - r.Min.Y`, in `int` arithmetic. -/
def Rectangle.Dy (r : Rectangle) : Int := wrapInt (r.Max.Y - r.Min.Y)

/-- What the call of a method does: it returns a value, or it does not (it
panics). -/
inductive Call (α : Type) where
  | returns (a : α)
  | panics
deriving DecidableEq, Repr

/-- A value of the interface `image.Image`: its `Bounds()`, whose coordinates
are values of type `int`, and its `At(x, y)`, a call that returns a colour
(`none` for the nil colour) or panics. -/
structure Image where
  Bounds : Rectangle
  At : Int → Int → Call (Option Color)
  inRange : isInt Bounds.Min.X ∧ isInt Bounds.Min.Y ∧ isInt Bounds.Max.X ∧ isInt Bounds.Max.Y

/-- The struct `image.NRGBA`.  The buffer `Pix` is seen as the pixel it holds
for each coordinate; `Rect` is the image's bounds. -/
structure NRGBAImage where
  Rect : Rectangle
  Pix : Int → Int → NRGBA

/-- The function `mul3NonNeg` of package `image`: `x * y * z`, or `-1` when an
argument is negative or a product overflows (`bits.Mul64` with a high word, or
a result that is negative as an `int`). -/
def mul3NonNeg (x y z : Int) : Int :=
  if x < 0 ∨ y < 0 ∨ z < 0 then -1
  else if 18446744073709551616 ≤ x * y then -1
  else if 18446744073709551616 ≤ x * y * z then -1
  else if maxInt < x * y * z then -1
  else x * y * z

/-- The function `pixelBufferLength` of package `image`: it panics (`none`)
when the rectangle "has huge or negative dimensions". -/
def pixelBufferLength (bytesPerPixel : Int) (r : Rectangle) : Option Int :=
  if mul3NonNeg bytesPerPixel r.Dx r.Dy < 0 then none
  else some (mul3NonNeg bytesPerPixel r.Dx r.Dy)

/-- The function `image.NewNRGBA`: an image with the given bounds whose buffer,
`make([]uint8, pixelBufferLength(4, r, "NRGBA"))`, is zeroed.  The parameter
`maxAlloc` is the largest length for which `make` succeeds on the platform;
beyond it the call does not return an image (`none`). -/
def NewNRGBA (maxAlloc : Int) (r : Rectangle) : Option NRGBAImage :=
  match pixelBufferLength 4 r with
  | none => none
  | some n => if n ≤ maxAlloc then some { Rect := r, Pix := fun _ _ => ⟨0, 0, 0, 0⟩ } else none

/-- The method `(*image.NRGBA).At`: the zero colour `color.NRGBA{}` outside the
bounds, the stored pixel inside. -/
def NRGBAImage.At (img : NRGBAImage) (x y : Int) : Color :=
  if (Point.mk x y).In img.Rect then .nrgba (img.Pix x y) else .nrgba ⟨0, 0, 0, 0⟩

/-- The conversion of `color.NRGBAModel`: a `color.NRGBA` is returned as it is;
another colour is un-premultiplied from its `RGBA()` channels. -/
def nrgbaModel : Color → NRGBA
  | .nrgba c => c
  | .other r g b a =>
    if a.val = 0xffff then ⟨toUint8 (r.val >>> 8), toUint8 (g.val >>> 8), toUint8 (b.val >>> 8), 0xff⟩
    else if a.val = 0 then ⟨0, 0, 0, 0⟩
    else
      ⟨toUint8 ((r.val * 0xffff / a.val) >>> 8), toUint8 ((g.val * 0xffff / a.val) >>> 8),
        toUint8 ((b.val * 0xffff / a.val) >>> 8), toUint8 (a.val >>> 8)⟩

/-- The method `(*image.NRGBA).Set`: nothing happens for a point outside the
bounds; inside, the colour is converted by `color.NRGBAModel` and stored.  The
colour `c` is `none` for a nil `color.Color`, whose conversion panics
(`none`). -/
def NRGBAImage.Set (img : NRGBAImage) (x y : Int) (c : Option Color) : Option NRGBAImage :=
  if (Point.mk x y).In img.Rect then
    match c with
    | none => none
    | some c =>
      some { img with Pix := fun x' y' => if x' = x ∧ y' = y then nrgbaModel c else img.Pix x' y' }
  else some img

/-- The interface `Processor`, seen through the method `Convert` that
`ConvertImage` calls: given a colour (`none` for the nil colour), the call
returns a colour or panics. -/
abbrev Processor := Option Color → Call (Option Color)

/-- The statement `output.Set(x, y, p.Convert(input.At(x, y)))` of
`ConvertImage`: `input.At` is called first, then `p.Convert`, then
`output.Set`; the result is `none` when one of them panics. -/
def pixelStep (p : Processor) (input : Image) (x y : Int) (output : NRGBAImage) :
    Option NRGBAImage :=
  match input.At x y with
  | .panics => none
  | .returns c =>
    match p c with
    | .panics => none
    | .returns c' => output.Set x y c'

/-- What a run of `ConvertImage` does within a given number of loop tests: it
returns a value, it panics, or it is still running. -/
inductive Run (α : Type) where
  | returns (a : α)
  | panics
  | unfinished
deriving DecidableEq, Repr

/-- The value a run returns, transformed. -/
def Run.map {α β : Type} (f : α → β) : Run α → Run β
  | .returns a => .returns (f a)
  | .panics => .panics
  | .unfinished => .unfinished

/-- The inner loop of `ConvertImage`,
`for y := input.Bounds().Min.Y; y <= input.Bounds().Max.Y; y++`, from the test
of the condition at `y`; `y++` is in `int` arithmetic.  The first argument
bounds the number of tests. -/
def yLoop (p : Processor) (input : Image) (x : Int) :
    Nat → Int → NRGBAImage → Run NRGBAImage
  | 0, _, _ => .unfinished
  | fuel + 1, y, output =>
    if y ≤ input.Bounds.Max.Y then
      match pixelStep p input x y output with
      | none => .panics
      | some output' => yLoop p input x fuel (wrapInt (y + 1)) output'
    else .returns output

/-- The outer loop of `ConvertImage`,
`for x := input.Bounds().Min.X; x <= input.Bounds().Max.X; x++`, from the test
of the condition at `x`; each iteration runs the inner loop within `fuelY`
tests. -/
def xLoop (p : Processor) (input : Image) (fuelY : Nat) :
    Nat → Int → NRGBAImage → Run NRGBAImage
  | 0, _, _ => .unfinished
  | fuel + 1, x, output =>
    if x ≤ input.Bounds.Max.X then
      match yLoop p input x fuelY input.Bounds.Min.Y output with
      | .returns output' => xLoop p input fuelY fuel (wrapInt (x + 1)) output'
      | .panics => .panics
      | .unfinished => .unfinished
    else .returns output

/-- The function `ConvertImage`, run within `fuel` tests of each loop:
`image.NewNRGBA(input.Bounds())`, then the two nested loops. -/
def ConvertImage (maxAlloc : Int) (fuel : Nat) (input : Image) (p : Processor) :
    Run NRGBAImage :=
  match NewNRGBA maxAlloc input.Bounds with
  | none => .panics
  | some output => xLoop p input fuel fuel input.Bounds.Min.X output

/-- The inner loop of `ConvertImage` with the condition `y < Max.Y` in place of
`y <= Max.Y`. -/
def yLoopHalfOpen (p : Processor) (input : Image) (x : Int) :
    Nat → Int → NRGBAImage → Run NRGBAImage
  | 0, _, _ => .unfinished
  | fuel + 1, y, output =>
    if y < input.Bounds.Max.Y then
      match pixelStep p input x y output with
      | none => .panics
      | some output' => yLoopHalfOpen p input x fuel (wrapInt (y + 1)) output'
    else .returns output

/-- The outer loop of `ConvertImage` with the condition `x < Max.X` in place of
`x <= Max.X`, around the inner loop with `y < Max.Y`. -/
def xLoopHalfOpen (p : Processor) (input : Image) (fuelY : Nat) :
    Nat → Int → NRGBAImage → Run NRGBAImage
  | 0, _, _ => .unfinished
  | fuel + 1, x, output =>
    if x < input.Bounds.Max.X then
      match yLoopHalfOpen p input x fuelY input.Bounds.Min.Y output with
      | .returns output' => xLoopHalfOpen p input fuelY fuel (wrapInt (x + 1)) output'
      | .panics => .panics
      | .unfinished => .unfinished
    else .returns output

/-- The function `ConvertImage` with its loops over the half-open ranges
`Min.X <= x < Max.X` and `Min.Y <= y < Max.Y` only, to compare `ConvertImage`
with. -/
def ConvertImageHalfOpen (maxAlloc : Int) (fuel : Nat) (input : Image) (p : Processor) :
    Run NRGBAImage :=
  match NewNRGBA maxAlloc input.Bounds with
  | none => .panics
  | some output => xLoopHalfOpen p input fuel fuel input.Bounds.Min.X output

/-- The first `n` iterations of the inner loop of `ConvertImage` from `y`,
unrolled, without the test of the condition. -/
def columnLoop (p : Processor) (input : Image) (x : Int) :
    Nat → Int → NRGBAImage → Option NRGBAImage
  | 0, _, output => some output
  | n + 1, y, output =>
    match pixelStep p input x y output with
    | none => none
    | some output' => columnLoop p input x n (y + 1) output'

/-- The first `n` iterations of the outer loop of `ConvertImage` from `x`,
unrolled, each with `ny` iterations of the inner loop from `Min.Y`. -/
def rowLoop (p : Processor) (input : Image) (ny : Nat) :
    Nat → Int → NRGBAImage → Option NRGBAImage
  | 0, _, output => some output
  | n + 1, x, output =>
    match columnLoop p input x ny input.Bounds.Min.Y output with
    | none => none
    | some output' => rowLoop p input ny n (x + 1) output'

/-- A run from the result of unrolled iterations. -/
def Run.ofOption {α : Type} : Option α → Run α
  | some a => .returns a
  | none => .panics

/-- The pixel `ConvertImage` stores at `(x, y)` when it stores one: the
`color.NRGBAModel` conversion of `p.Convert(input.At(x, y))`. -/
def convertedPixel (p : Processor) (input : Image) (x y : Int) : NRGBA :=
  match input.At x y with
  | .returns c =>
    match p c with
    | .returns (some c') => nrgbaModel c'
    | _ => ⟨0, 0, 0, 0⟩
  | .panics => ⟨0, 0, 0, 0⟩

/-- The statement `output.Set(x, y, p.Convert(input.At(x, y)))` goes through at
`(x, y)`, for an output of bounds `r`: `input.At` returns, `p.Convert` returns,
and the colour is not nil if the point is in `r`. -/
def stepOk (p : Processor) (input : Image) (r : Rectangle) (x y : Int) : Prop :=
  ∃ c c', input.At x y = .returns c ∧ p c = .returns c' ∧
    ((Point.mk x y).In r → c' ≠ none)

/-! ## The colour distance and the naive processor -/

/-- The squared Euclidean distance of two four-channel arrays,
`dr^2 + dg^2 + db^2 + da^2`; a missing entry counts as zero. -/
def distance (a b : List Nat) : Nat :=
  Nat.dist (a.getD 0 0) (b.getD 0 0) ^ 2 + Nat.dist (a.getD 1 0) (b.getD 1 0) ^ 2 +
    Nat.dist (a.getD 2 0) (b.getD 2 0) ^ 2 + Nat.dist (a.getD 3 0) (b.getD 3 0) ^ 2

/-- The four 8-bit channels of a `color.NRGBA`, as stored. -/
def NRGBA.channels (c : NRGBA) : List Nat := [c.R.val, c.G.val, c.B.val, c.A.val]

/-- The four alpha-premultiplied 16-bit channels of a colour, as `RGBA()`
returns them. -/
def Color.channels16 (c : Color) : List Nat :=
  match c.RGBA with
  | (r, g, b, a) => [r, g, b, a]

/-- The distance of two colours over their four 8-bit channels, as
`colorToArray` gives them; for a `color.NRGBA` of alpha 255 these are its
fields `R`, `G`, `B`, `A`. -/
def colorDistance (a b : Color) : Nat := distance (colorToArray a) (colorToArray b)

/-- The function `sqDiff` of `image/color`: `d := x - y; return (d * d) >> 2`
in `uint32` arithmetic. -/
def sqDiff (x y : Nat) : Nat :=
  let d := (x + 2 ^ 32 - y) % 2 ^ 32
  ((d * d) % 2 ^ 32) >>> 2

/-- The sum `sqDiff(cr, vr) + sqDiff(cg, vg) + sqDiff(cb, vb) + sqDiff(ca, va)`
that `Palette.Index` computes for the colour `c` and the palette entry `v`, in
`uint32` arithmetic. -/
def sqSum (c v : Color) : Nat :=
  match c.RGBA, v.RGBA with
  | (cr, cg, cb, ca), (vr, vg, vb, va) =>
    (sqDiff cr vr + sqDiff cg vg + sqDiff cb vb + sqDiff ca va) % 2 ^ 32

/-- The loop of `color.Palette.Index` over the entries still to visit, the
next one having index `i`; `ret` and `bestSum` are the loop's variables. -/
def indexLoop (c : Color) : List Color → Nat → Nat → Nat → Nat
  | [], _, ret, _ => ret
  | v :: vs, i, ret, bestSum =>
    if sqSum c v < bestSum then
      if sqSum c v = 0 then i
      else indexLoop c vs (i + 1) i (sqSum c v)
    else indexLoop c vs (i + 1) ret bestSum

/-- The method `color.Palette.Index`: `ret, bestSum := 0, uint32(1<<32-1)`. -/
def Palette.Index (p : List Color) (c : Color) : Nat :=
  indexLoop c p 0 0 (2 ^ 32 - 1)

/-- The method `color.Palette.Convert`: nil for the empty palette, and
`p[p.Index(c)]` otherwise. -/
def Palette.Convert (p : List Color) (c : Color) : Option Color :=
  if p.length = 0 then none else p[Palette.Index p c]?

/-- The method `naiveProcessor.Convert`: `p.palette.Convert(color)`. -/
def naiveProcessor.Convert (palette : List Color) (color : Color) : Option Color :=
  Palette.Convert palette color

/-- The function `NewNaiveProcessor`: the processor `&naiveProcessor{palette}`,
seen through its method `Convert` on a colour. -/
def NewNaiveProcessor (palette : List Color) : Color → Option Color :=
  naiveProcessor.Convert palette

/-- A `color.NRGBA` of alpha 255: a fully opaque colour with 8-bit channels,
as `HexReader` produces them. -/
def Color.isSolid : Color → Prop
  | .nrgba n => n.A = 255
  | .other _ _ _ _ => False

instance : DecidablePred Color.isSolid := fun c => by
  cases c <;> unfold Color.isSolid <;> infer_instance

/-! ## The k-d tree processor

The package `github.com/jakubnoga/kdtree` that `NewKdTreeProcessor` builds its
index with is not among the sources; the index is modelled from sections 3 and
4.2 of the specification. -/

/-- The value of a point on an axis; a missing entry counts as zero, as in
`distance`. -/
def coord (p : List Nat) (axis : Nat) : Nat := p.getD axis 0

/-- Modelled from the spec: the tree of package `kdtree`, absent from the
sources.  "A balanced spatial partition over the Palette's colors": a node
holds one point (`Point`) and the subtrees of the two half-spaces; `nil` is the
index of no point. -/
inductive KdTree where
  | nil : KdTree
  | node (Point : List Nat) (Left Right : KdTree) : KdTree
deriving DecidableEq, Repr

/-- Modelled from the spec: the ordering of the points "by that channel's
value", absent from the sources, as a stable sort. -/
def sortByAxis (axis : Nat) (points : List (List Nat)) : List (List Nat) :=
  points.insertionSort (fun a b => coord a axis ≤ coord b axis)

/-- Modelled from the spec: the recursion of `kdtree.Create`, absent from the
sources.  "Recursively partitions colors by splitting on one channel at a
time, cycling through the 4 channels with tree depth, choosing the median
element (by that channel's value) as the splitting node at each level."  The
first argument bounds the depth of the recursion. -/
def createAux : Nat → List (List Nat) → Nat → KdTree
  | 0, _, _ => .nil
  | fuel + 1, points, depth =>
    match (sortByAxis (depth % 4) points).drop ((sortByAxis (depth % 4) points).length / 2) with
    | [] => .nil
    | p :: right =>
      .node p
        (createAux fuel
          ((sortByAxis (depth % 4) points).take ((sortByAxis (depth % 4) points).length / 2))
          (depth + 1))
        (createAux fuel right (depth + 1))

/-- Modelled from the spec: the function `kdtree.Create(points, depth)`,
absent from the sources; a recursion depth of the number of points is
enough. -/
def Create (points : List (List Nat)) (depth : Nat) : KdTree :=
  createAux points.length points depth

/-- Modelled from the spec: the search of `NearestNeighbour` below a node,
absent from the sources.  "Descend toward the half-space containing the query
based on the splitting channel at each level, track the best (closest)
candidate seen, and backtrack to the sibling subtree whenever the splitting
plane's distance to the query is smaller than the current best distance." -/
def nearestAux (query : List Nat) : KdTree → Nat → List Nat → List Nat
  | .nil, _, best => best
  | .node p left right, depth, best =>
    if coord query (depth % 4) < coord p (depth % 4) then
      if Nat.dist (coord query (depth % 4)) (coord p (depth % 4)) ^ 2 <
          distance query (nearestAux query left (depth + 1)
            (if distance query p < distance query best then p else best)) then
        nearestAux query right (depth + 1) (nearestAux query left (depth + 1)
          (if distance query p < distance query best then p else best))
      else
        nearestAux query left (depth + 1)
          (if distance query p < distance query best then p else best)
    else
      if Nat.dist (coord query (depth % 4)) (coord p (depth % 4)) ^ 2 <
          distance query (nearestAux query right (depth + 1)
            (if distance query p < distance query best then p else best)) then
        nearestAux query left (depth + 1) (nearestAux query right (depth + 1)
          (if distance query p < distance query best then p else best))
      else
        nearestAux query right (depth + 1)
          (if distance query p < distance query best then p else best)

/-- Modelled from the spec: the method `NearestNeighbour` of the tree, absent
from the sources: the point of the node nearest to the query, from the root at
depth 0; the empty index has no answer (`none`). -/
def NearestNeighbour (tree : KdTree) (query : List Nat) : Option (List Nat) :=
  match tree with
  | .nil => none
  | .node p left right => some (nearestAux query (.node p left right) 0 p)

/-- The method `kdTreeProcessor.Convert`:
`arrayToColor(p.tree.NearestNeighbour(colorToArray(color)).Point)`. -/
def kdTreeProcessor.Convert (tree : KdTree) (color : Color) : Option Color :=
  match NearestNeighbour tree (colorToArray color) with
  | none => none
  | some point => arrayToColor point

/-- The function `NewKdTreeProcessor`: the processor
`&kdTreeProcessor{kdtree.Create(paletteToSlice(palette), 0)}`, seen through its
method `Convert` on a colour; `none` is a panic. -/
def NewKdTreeProcessor (palette : List Color) : Color → Option Color :=
  kdTreeProcessor.Convert (Create (paletteToSlice palette) 0)

/-- The points a tree holds. -/
def KdTree.points : KdTree → List (List Nat)
  | .nil => []
  | .node p left right => p :: (left.points ++ right.points)

/-- The partition invariant of a tree whose root is at the given depth: on the
axis of a node, the points of its left subtree are not above the node's point
and those of its right subtree not below it. -/
def KdTree.Ordered : KdTree → Nat → Prop
  | .nil, _ => True
  | .node p left right, depth =>
    (∀ x ∈ left.points, coord x (depth % 4) ≤ coord p (depth % 4)) ∧
      (∀ x ∈ right.points, coord p (depth % 4) ≤ coord x (depth % 4)) ∧
      left.Ordered (depth + 1) ∧ right.Ordered (depth + 1)

/-! ## The two processors as values of the interface -/

/-- The processor of `NewNaiveProcessor(palette)` as a `Processor`.  On the nil
colour `color.Palette.Convert` returns nil for the empty palette and otherwise
panics, in `c.RGBA()`. -/
def Processor.ofNaive (palette : List Color) : Processor
  | none => if palette.length = 0 then .returns none else .panics
  | some c => .returns (NewNaiveProcessor palette c)

/-- The processor of `NewKdTreeProcessor(palette)` as a `Processor`.  On the nil
colour `colorToArray` panics, in `color.RGBA()`. -/
def Processor.ofKdTree (palette : List Color) : Processor
  | none => .panics
  | some c =>
    match NewKdTreeProcessor palette c with
    | none => .panics
    | some r => .returns (some r)

/-- A colour whose red, green and blue channels are 8-bit values: `RGBA()`
returns `v * 0x101` for each, as for the 8-bit colour types `color.RGBA`,
`color.Gray` and `color.NRGBA` of alpha 255. -/
def Color.eightBit (c : Color) : Prop :=
  c.RGBA.1 % 257 = 0 ∧ c.RGBA.2.1 % 257 = 0 ∧ c.RGBA.2.2.1 % 257 = 0

instance : DecidablePred Color.eightBit := fun c => by
  unfold Color.eightBit; infer_instance

/-- A fully opaque colour with 8-bit channels, of any colour type: `RGBA()`
returns `v * 0x101` for red, green and blue and `0xffff` for alpha. -/
def Color.solid8 (c : Color) : Prop :=
  c.eightBit ∧ c.RGBA.2.2.2 = 65535

instance : DecidablePred Color.solid8 := fun c => by
  unfold Color.solid8; infer_instance

/-- The squared distance of two colours over the red, green and blue channels
of `RGBA()`, scaled down to 8 bits. -/
def rgbDist (c v : Color) : Nat :=
  Nat.dist (c.RGBA.1 / 257) (v.RGBA.1 / 257) ^ 2 +
    Nat.dist (c.RGBA.2.1 / 257) (v.RGBA.2.1 / 257) ^ 2 +
    Nat.dist (c.RGBA.2.2.1 / 257) (v.RGBA.2.2.1 / 257) ^ 2

/-! ## Example inputs -/

/-- A platform on which `make` allocates up to 4 GiB. -/
def fourGiB : Int := 4294967296

/-- An image of one pixel, `color.NRGBA{128, 128, 128, 255}` at `(0, 0)`, with
bounds `(0,0)-(1,1)`; like the image types of package `image`, its `At` returns
the zero colour outside the bounds. -/
def grayPixel : Image :=
  { Bounds := ⟨⟨0, 0⟩, ⟨1, 1⟩⟩
    At := fun x y =>
      .returns (some (if x = 0 ∧ y = 0 then solid 128 128 128 else .nrgba ⟨0, 0, 0, 0⟩))
    inRange := by decide }

/-- An image of one pixel, the fully transparent `color.NRGBA{255, 255, 255, 0}`
at `(0, 0)`, with bounds `(0,0)-(1,1)`. -/
def clearPixel : Image :=
  { Bounds := ⟨⟨0, 0⟩, ⟨1, 1⟩⟩
    At := fun x y =>
      .returns (some (if x = 0 ∧ y = 0 then .nrgba ⟨255, 255, 255, 0⟩
        else .nrgba ⟨0, 0, 0, 0⟩))
    inRange := by decide }

/-- An image of bounds `(0,0)-(2,2)` whose `At` returns black everywhere. -/
def blackSquare : Image :=
  { Bounds := ⟨⟨0, 0⟩, ⟨2, 2⟩⟩
    At := fun _ _ => .returns (some (solid 0 0 0))
    inRange := by decide }

/-- An image of one black pixel whose bounds end at the largest `int`:
`image.Rect(MaxInt-1, 0, MaxInt, 1)`; its `At` returns the zero colour outside
the bounds. -/
def edgePixel : Image :=
  { Bounds := ⟨⟨9223372036854775806, 0⟩, ⟨9223372036854775807, 1⟩⟩
    At := fun x y =>
      .returns (some (if x = 9223372036854775806 ∧ y = 0 then solid 0 0 0
        else .nrgba ⟨0, 0, 0, 0⟩))
    inRange := by decide }

/-- An image of one black pixel with bounds `(0,0)-(1,1)` whose `At` panics
outside the bounds. -/
def strictPixel : Image :=
  { Bounds := ⟨⟨0, 0⟩, ⟨1, 1⟩⟩
    At := fun x y => if x = 0 ∧ y = 0 then .returns (some (solid 0 0 0)) else .panics
    inRange := by decide }

/-! ## Theorems -/

/-! ### Colour helpers and the palette reader -/

theorem lower_ge (c : Nat) : c ≤ lower c := by
  unfold lower
  apply Nat.le_of_testBit
  intro i hi
  simp [hi]

theorem digitOf_hex {c : Nat} (h : isHexDigit c) : digitOf c = some (hexVal c) ∧ hexVal c < 16 := by
  have hc : c < 128 := by unfold isHexDigit at h; omega
  revert h
  interval_cases c <;> decide

theorem digitOf_not_hex {c : Nat} (h : ¬ isHexDigit c) :
    ∀ d, digitOf c = some d → 16 ≤ d := by
  by_cases hc : c < 128
  · revert h
    interval_cases c <;> simp [digitOf, lower, isHexDigit]
  · intro d hd
    have := lower_ge c
    unfold digitOf at hd
    rw [if_neg (by omega), if_neg (by omega)] at hd
    cases hd

theorem ParseUint_pair (a b : Nat) :
    ParseUint [a, b] =
      if isHexDigit a ∧ isHexDigit b then .ok (16 * hexVal a + hexVal b)
      else .error (.syntaxError [a, b]) := by
  by_cases ha : isHexDigit a
  · obtain ⟨ea, la⟩ := digitOf_hex ha
    by_cases hb : isHexDigit b
    · obtain ⟨eb, lb⟩ := digitOf_hex hb
      have h1 : ¬ (16 ≤ hexVal a) := by omega
      have h2 : ¬ (16 ≤ hexVal b) := by omega
      have h3 : ¬ (255 < hexVal a) := by omega
      have h4 : ¬ (1152921504606846976 ≤ hexVal a) := by omega
      have h5 : ¬ (255 < 16 * hexVal a + hexVal b) := by omega
      simp [ParseUint, parseDigits, ea, eb, ha, hb, h1, h2, h3, h4, h5, Nat.mul_comm]
    · have h1 : ¬ (16 ≤ hexVal a) := by omega
      have h3 : ¬ (255 < hexVal a) := by omega
      have h4 : ¬ (1152921504606846976 ≤ hexVal a) := by omega
      have hnb := digitOf_not_hex hb
      cases eb : digitOf b with
      | none => simp [ParseUint, parseDigits, ea, eb, ha, hb, h1, h3, h4]
      | some d =>
        have := hnb d eb
        simp [ParseUint, parseDigits, ea, eb, ha, hb, h1, h3, h4, this]
  · have hna := digitOf_not_hex ha
    cases ea : digitOf a with
    | none => simp [ParseUint, parseDigits, ea, ha]
    | some d =>
      have := hna d ea
      simp [ParseUint, parseDigits, ea, ha, this]

theorem readLine_valid {line : List Nat} (h : validLine line) :
    readLine line = .ok (lineColor line) := by
  obtain ⟨hl, hd⟩ := h
  match line, hl, hd with
  | [a, b, c, d, e, f], _, hd =>
    simp only [List.mem_cons, List.mem_singleton, forall_eq_or_imp, forall_eq,
      List.not_mem_nil, false_imp_iff, implies_true, and_true] at hd
    obtain ⟨ha, hb, hc, hd', he, hf⟩ := hd
    simp [readLine, substr, ParseUint_pair, ha, hb, hc, hd', he, hf, lineColor, byteAt, solid]

theorem readLine_invalid {line : List Nat} (h : ¬ validLine line) :
    readLine line = .error (lineError line) := by
  by_cases hl : line.length = 6
  · match line, hl, h with
    | [a, b, c, d, e, f], _, h =>
      have hv : ¬ (isHexDigit a ∧ isHexDigit b ∧ isHexDigit c ∧ isHexDigit d ∧
          isHexDigit e ∧ isHexDigit f) := by
        intro hh
        apply h
        refine ⟨rfl, ?_⟩
        simpa using hh
      by_cases h1 : isHexDigit a ∧ isHexDigit b
      · by_cases h2 : isHexDigit c ∧ isHexDigit d
        · have h3 : ¬ (isHexDigit e ∧ isHexDigit f) := by tauto
          simp [readLine, substr, ParseUint_pair, lineError, firstBadPair, validPair, h1, h2, h3]
        · simp [readLine, substr, ParseUint_pair, lineError, firstBadPair, validPair, h1, h2]
      · simp [readLine, substr, ParseUint_pair, lineError, firstBadPair, validPair, h1]
  · simp [readLine, lineError, hl]

theorem readLoop_valid (lines : List (List Nat)) (palette : List Color)
    (h : ∀ l ∈ lines, validLine l) :
    readLoop lines palette = .ok (palette ++ lines.map lineColor) := by
  induction lines generalizing palette with
  | nil => simp [readLoop]
  | cons l ls ih =>
    have hl := readLine_valid (h l (List.mem_cons_self _ _))
    simp [readLoop, hl, ih _ (fun x hx => h x (List.mem_cons_of_mem _ hx))]

theorem readLoop_invalid (pre : List (List Nat)) (bad : List Nat) (rest : List (List Nat))
    (palette : List Color) (h : ∀ l ∈ pre, validLine l) (hb : ¬ validLine bad) :
    readLoop (pre ++ bad :: rest) palette = .error (lineError bad) := by
  induction pre generalizing palette with
  | nil => simp [readLoop, readLine_invalid hb]
  | cons l ls ih =>
    have hl := readLine_valid (h l (List.mem_cons_self _ _))
    simp [readLoop, hl, ih _ (fun x hx => h x (List.mem_cons_of_mem _ hx))]

theorem split_first_invalid (lines : List (List Nat)) (h : ∃ l ∈ lines, ¬ validLine l) :
    ∃ pre bad rest, lines = pre ++ bad :: rest ∧ (∀ l ∈ pre, validLine l) ∧ ¬ validLine bad := by
  induction lines with
  | nil => simp at h
  | cons l ls ih =>
    by_cases hl : validLine l
    · have : ∃ l ∈ ls, ¬ validLine l := by
        obtain ⟨x, hx, hnx⟩ := h
        rcases List.mem_cons.1 hx with rfl | hx
        · exact absurd hl hnx
        · exact ⟨x, hx, hnx⟩
      obtain ⟨pre, bad, rest, e, hp, hb⟩ := ih this
      refine ⟨l :: pre, bad, rest, by simp [e], ?_, hb⟩
      intro x hx
      rcases List.mem_cons.1 hx with rfl | hx
      · exact hl
      · exact hp x hx
    · exact ⟨[], l, ls, rfl, by simp, hl⟩

theorem or_shl8 (v : Nat) (h : v < 256) : v ||| (v <<< 8) = 257 * v := by
  rw [Nat.shiftLeft_eq, Nat.or_comm, Nat.mul_comm, ← Nat.mul_add_lt_is_or (by simpa using h)]
  omega

theorem premul_eq (v a : Fin 256) : premul v a = 257 * v.val * a.val / 255 := by
  unfold premul
  rw [or_shl8 v.val v.isLt]

theorem RGBA_solid (r g b : Fin 256) :
    (solid r g b).RGBA = (257 * r.val, 257 * g.val, 257 * b.val, 65535) := by
  have h255 : ((255 : Fin 256) : Nat) = 255 := rfl
  simp only [solid, Color.RGBA, NRGBA.RGBA, premul_eq, h255, or_shl8 255 (by decide)]
  have hr := r.isLt
  have hg := g.isLt
  have hb := b.isLt
  refine Prod.ext ?_ (Prod.ext ?_ (Prod.ext ?_ ?_)) <;> simp

theorem colorToArray_solid (r g b : Fin 256) :
    colorToArray (solid r g b) = [r.val, g.val, b.val, 255] := by
  have hr := r.isLt
  have hg := g.isLt
  have hb := b.isLt
  simp only [colorToArray, RGBA_solid, Nat.shiftRight_eq_div_pow]
  refine congrArg₂ _ (by omega) (congrArg₂ _ (by omega) (congrArg₂ _ (by omega) rfl))

theorem toUint8_val (v : Fin 256) : toUint8 v.val = v := by
  apply Fin.ext
  simp [toUint8, Nat.mod_eq_of_lt v.isLt]

/-- C9: for a palette of fully opaque 8-bit colours `(R_i, G_i, B_i, 255)`,
`paletteToSlice` returns a slice of the same length whose `i`-th entry is
`[R_i, G_i, B_i, 255]`, and `arrayToColor (colorToArray c) = c` for every such
colour. -/
theorem paletteToSlice_solid (rgb : List (Fin 256 × Fin 256 × Fin 256)) :
    paletteToSlice (rgb.map fun t => solid t.1 t.2.1 t.2.2)
        = rgb.map (fun t => [t.1.val, t.2.1.val, t.2.2.val, 255]) ∧
      (paletteToSlice (rgb.map fun t => solid t.1 t.2.1 t.2.2)).length = rgb.length ∧
      ∀ r g b : Fin 256, arrayToColor (colorToArray (solid r g b)) = some (solid r g b) := by
  refine ⟨?_, by simp [paletteToSlice], ?_⟩
  · simp [paletteToSlice, colorToArray_solid]
  · intro r g b
    have h255 : toUint8 255 = 255 := by decide
    rw [colorToArray_solid]
    simp [arrayToColor, toUint8_val, solid, h255]

/-- C6: for every sequence of `N >= 0` lines that are each exactly six
hexadecimal digits (upper or lower case) and no read fault, `Read` returns no
error and a palette of length `N` whose `i`-th entry is the colour with `R`,
`G`, `B` the bytes written by characters 0-1, 2-3, 4-5 of the `i`-th line and
alpha 255. -/
theorem Read_valid (lines : List (List Nat)) (h : ∀ l ∈ lines, validLine l) :
    HexReader.Read lines none = (some (lines.map lineColor), none) ∧
      (lines.map lineColor).length = lines.length ∧
      ∀ i (hi : i < lines.length), (lines.map lineColor)[i]? =
        some (.nrgba ⟨toUint8 (byteAt lines[i] 0), toUint8 (byteAt lines[i] 2),
          toUint8 (byteAt lines[i] 4), 255⟩) := by
  refine ⟨?_, by simp, ?_⟩
  · simp [HexReader.Read, readLoop_valid lines [] h]
  · intro i hi
    simp [List.getElem?_map, List.getElem?_eq_getElem hi, lineColor, solid]

theorem Read_valid_witness :
    HexReader.Read [utf8 "1234aF", utf8 "ffFF00"] none
      = (some [.nrgba ⟨0x12, 0x34, 0xaf, 255⟩, .nrgba ⟨0xff, 0xff, 0, 255⟩], none) :=
  (Read_valid [utf8 "1234aF", utf8 "ffFF00"] (by decide)).1

/-- C7 as the code has it, the length being counted in bytes.  Without a read
fault `Read` fails exactly when some line is not six hexadecimal digits; the
error is that of the first such line: `malformedLine` when its length in bytes
is not six, and otherwise the syntax error of its first pair that does not
parse; the empty input gives the empty palette and no error. -/
theorem Read_fails_iff (lines : List (List Nat)) :
    ((HexReader.Read lines none).2.isSome ↔ ∃ l ∈ lines, ¬ validLine l) ∧
      (∀ pre bad rest, lines = pre ++ bad :: rest → (∀ l ∈ pre, validLine l) →
        ¬ validLine bad →
        HexReader.Read lines none = (none, some (if bad.length ≠ 6 then .malformedLine bad
          else .syntaxError (firstBadPair bad)))) ∧
      HexReader.Read [] none = (some [], none) := by
  have key : ∀ pre bad rest, lines = pre ++ bad :: rest → (∀ l ∈ pre, validLine l) →
      ¬ validLine bad → HexReader.Read lines none = (none, some (lineError bad)) := by
    intro pre bad rest e hp hb
    simp [HexReader.Read, e, readLoop_invalid pre bad rest [] hp hb]
  refine ⟨⟨?_, ?_⟩, ?_, by simp [HexReader.Read, readLoop]⟩
  · intro hs
    by_contra hne
    have hall : ∀ l ∈ lines, validLine l := by
      intro l hl
      by_contra hv
      exact hne ⟨l, hl, hv⟩
    simp [HexReader.Read, readLoop_valid lines [] hall] at hs
  · intro hex
    obtain ⟨pre, bad, rest, e, hp, hb⟩ := split_first_invalid lines hex
    rw [key pre bad rest e hp hb]
    simp
  · intro pre bad rest e hp hb
    rw [key pre bad rest e hp hb]
    rfl

theorem Read_fails_iff_witness :
    HexReader.Read [utf8 "c0ffee", utf8 "12345", utf8 "zz"] none
        = (none, some (.malformedLine (utf8 "12345"))) ∧
      HexReader.Read [utf8 "c0ffee", utf8 "12345Z"] none = (none, some (.syntaxError (utf8 "5Z"))) :=
  ⟨(Read_fails_iff _).2.1 [utf8 "c0ffee"] (utf8 "12345") [utf8 "zz"] rfl (by decide) (by decide),
   (Read_fails_iff _).2.1 [utf8 "c0ffee"] (utf8 "12345Z") [] rfl (by decide) (by decide)⟩

/-- C7 as stated fails when the length is counted in characters: the line
`12345é` has six characters, the last pair of which is no hexadecimal byte, yet
the error is `malformedLine` (its length is seven bytes); the line `é2345` has
five characters, yet the error is the syntax error of its first two bytes. -/
theorem Read_length_in_characters_counterexample :
    ("12345é".length = 6 ∧
        HexReader.Read [utf8 "12345é"] none = (none, some (.malformedLine (utf8 "12345é")))) ∧
      ("é2345".length = 5 ∧
        HexReader.Read [utf8 "é2345"] none = (none, some (.syntaxError [195, 169]))) := by
  decide

/-- C8: `Read` stops at the first invalid line.  Whatever the valid lines
before it, the result is an error with a nil palette, and it is the same
whatever follows the invalid line (further lines, or a later read fault). -/
theorem Read_stops_at_first_error (valid : List (List Nat)) (bad : List Nat)
    (rest rest' : List (List Nat)) (err err' : Option Nat)
    (hv : ∀ l ∈ valid, validLine l) (hb : ¬ validLine bad) :
    (HexReader.Read (valid ++ bad :: rest) err).1 = none ∧
      (HexReader.Read (valid ++ bad :: rest) err).2 = some (lineError bad) ∧
      HexReader.Read (valid ++ bad :: rest) err = HexReader.Read (valid ++ bad :: rest') err' := by
  simp [HexReader.Read, readLoop_invalid valid bad _ [] hv hb]

theorem Read_stops_at_first_error_witness :
    (HexReader.Read [utf8 "c0ffee", utf8 "12345Z", utf8 "000000"] none).1 = none ∧
      (HexReader.Read [utf8 "c0ffee", utf8 "12345Z", utf8 "000000"] none).2
        = some (lineError (utf8 "12345Z")) ∧
      HexReader.Read [utf8 "c0ffee", utf8 "12345Z", utf8 "000000"] none
        = HexReader.Read [utf8 "c0ffee", utf8 "12345Z", utf8 "x"] (some 1) :=
  Read_stops_at_first_error [utf8 "c0ffee"] (utf8 "12345Z") [utf8 "000000"] [utf8 "x"]
    none (some 1) (by decide) (by decide)

/-! ### The pixel loop -/

theorem wrapInt_of_isInt {n : Int} (h1 : minInt ≤ n) (h2 : n ≤ maxInt) : wrapInt n = n := by
  unfold minInt at h1
  unfold maxInt at h2
  unfold wrapInt minInt
  omega

theorem wrapInt_le (n : Int) : wrapInt n ≤ maxInt := by
  unfold wrapInt minInt maxInt
  omega

theorem Set_rect {img img' : NRGBAImage} {x y : Int} {c : Option Color}
    (h : img.Set x y c = some img') : img'.Rect = img.Rect := by
  unfold NRGBAImage.Set at h
  split at h
  · cases c with
    | none => simp at h
    | some c => simp at h; rw [← h]
  · simp at h; rw [h]

theorem Set_outside (img : NRGBAImage) (x y : Int) (c : Option Color)
    (h : ¬ (Point.mk x y).In img.Rect) : img.Set x y c = some img := by
  simp [NRGBAImage.Set, h]

theorem pixelStep_rect {p : Processor} {input : Image} {x y : Int} {out out' : NRGBAImage}
    (h : pixelStep p input x y out = some out') : out'.Rect = out.Rect := by
  cases hA : input.At x y with
  | panics => simp [pixelStep, hA] at h
  | returns c =>
    cases hC : p c with
    | panics => simp [pixelStep, hA, hC] at h
    | returns c' =>
      simp only [pixelStep, hA, hC] at h
      exact Set_rect h

theorem pixelStep_outside {p : Processor} {input : Image} {x y : Int} {out out' : NRGBAImage}
    (hin : ¬ (Point.mk x y).In out.Rect) (h : pixelStep p input x y out = some out') :
    out' = out := by
  cases hA : input.At x y with
  | panics => simp [pixelStep, hA] at h
  | returns c =>
    cases hC : p c with
    | panics => simp [pixelStep, hA, hC] at h
    | returns c' =>
      simp only [pixelStep, hA, hC] at h
      rw [Set_outside out x y c' hin] at h
      exact (Option.some.inj h).symm

theorem pixelStep_inside {p : Processor} {input : Image} {x y : Int} {out out' : NRGBAImage}
    (hin : (Point.mk x y).In out.Rect) (h : pixelStep p input x y out = some out') :
    ∃ c c', input.At x y = .returns c ∧ p c = .returns (some c') ∧
      out' = ⟨out.Rect, fun x' y' =>
        if x' = x ∧ y' = y then (nrgbaModel c') else (out.Pix x' y')⟩ := by
  cases hA : input.At x y with
  | panics => simp [pixelStep, hA] at h
  | returns c =>
    cases hC : p c with
    | panics => simp [pixelStep, hA, hC] at h
    | returns c' =>
      simp only [pixelStep, hA, hC] at h
      cases c' with
      | none => simp [NRGBAImage.Set, hin] at h
      | some c' =>
        refine ⟨c, c', rfl, hC, ?_⟩
        simp only [NRGBAImage.Set, hin, if_true] at h
        exact (Option.some.inj h).symm

theorem pixelStep_of_stepOk {p : Processor} {input : Image} {x y : Int} {out : NRGBAImage}
    (h : stepOk p input out.Rect x y) : ∃ out', pixelStep p input x y out = some out' := by
  obtain ⟨c, c', hA, hC, hn⟩ := h
  simp only [pixelStep, hA, hC]
  by_cases hin : (Point.mk x y).In out.Rect
  · cases c' with
    | none => exact absurd rfl (hn hin)
    | some c' =>
      exact ⟨⟨out.Rect, fun x' y' =>
        if x' = x ∧ y' = y then (nrgbaModel c') else (out.Pix x' y')⟩,
        by simp [NRGBAImage.Set, hin]⟩
  · exact ⟨out, Set_outside out x y c' hin⟩

theorem columnLoop_rect (p : Processor) (input : Image) (x : Int) (n : Nat) (y : Int)
    (out out' : NRGBAImage) (h : columnLoop p input x n y out = some out') :
    out'.Rect = out.Rect := by
  induction n generalizing y out with
  | zero => simp [columnLoop] at h; rw [h]
  | succ n ih =>
    simp only [columnLoop] at h
    cases hs : pixelStep p input x y out with
    | none => simp [hs] at h
    | some o =>
      simp only [hs] at h
      rw [ih _ _ h, pixelStep_rect hs]

theorem rowLoop_rect (p : Processor) (input : Image) (ny n : Nat) (x : Int)
    (out out' : NRGBAImage) (h : rowLoop p input ny n x out = some out') :
    out'.Rect = out.Rect := by
  induction n generalizing x out with
  | zero => simp [rowLoop] at h; rw [h]
  | succ n ih =>
    simp only [rowLoop] at h
    cases hs : columnLoop p input x ny input.Bounds.Min.Y out with
    | none => simp [hs] at h
    | some o =>
      simp only [hs] at h
      rw [ih _ _ h, columnLoop_rect _ _ _ _ _ _ _ hs]

theorem columnLoop_char (p : Processor) (input : Image) (x : Int) (n : Nat) (y0 : Int)
    (out out' : NRGBAImage) (h : columnLoop p input x n y0 out = some out') :
    ∀ x' y', out'.Pix x' y' =
      if x' = x ∧ y0 ≤ y' ∧ y' < y0 + n ∧ (Point.mk x' y').In out.Rect
      then convertedPixel p input x' y' else out.Pix x' y' := by
  induction n generalizing y0 out with
  | zero =>
    have e : out' = out := by simpa [columnLoop] using h.symm
    subst e
    intro x' y'
    rw [if_neg]
    simp only [Int.Nat.cast_ofNat_Int, add_zero]
    omega
  | succ n ih =>
    rw [columnLoop] at h
    cases hs : pixelStep p input x y0 out with
    | none => rw [hs] at h; cases h
    | some o1 =>
      rw [hs] at h
      have hpix := ih (y0 + 1) o1 h
      by_cases hin : (Point.mk x y0).In out.Rect
      · obtain ⟨c, c', hA, hC, rfl⟩ := pixelStep_inside hin hs
        intro x' y'
        rw [hpix x' y']
        show (if x' = x ∧ y0 + 1 ≤ y' ∧ y' < y0 + 1 + (n : Int) ∧ (Point.mk x' y').In out.Rect
            then convertedPixel p input x' y'
            else (if x' = x ∧ y' = y0 then (nrgbaModel c') else (out.Pix x' y'))) = _
        by_cases hA' : x' = x ∧ y0 + 1 ≤ y' ∧ y' < y0 + 1 + (n : Int) ∧
            (Point.mk x' y').In out.Rect
        · have hB : x' = x ∧ y0 ≤ y' ∧ y' < y0 + ((n + 1 : Nat) : Int) ∧
              (Point.mk x' y').In out.Rect :=
            ⟨hA'.1, by omega, by push_cast; omega, hA'.2.2.2⟩
          rw [if_pos hA', if_pos hB]
        · rw [if_neg hA']
          by_cases hC' : x' = x ∧ y' = y0
          · obtain ⟨rfl, rfl⟩ := hC'
            have hB : x' = x' ∧ y' ≤ y' ∧ y' < y' + ((n + 1 : Nat) : Int) ∧
                (Point.mk x' y').In out.Rect :=
              ⟨rfl, le_refl _, by push_cast; omega, hin⟩
            rw [if_pos hB, if_pos ⟨rfl, rfl⟩]
            simp [convertedPixel, hA, hC]
          · have hB : ¬ (x' = x ∧ y0 ≤ y' ∧ y' < y0 + ((n + 1 : Nat) : Int) ∧
                (Point.mk x' y').In out.Rect) := by
              intro hh
              by_cases hy : y' = y0
              · exact hC' ⟨hh.1, hy⟩
              · apply hA'
                have := hh.2.2.1
                push_cast at this
                exact ⟨hh.1, by omega, by omega, hh.2.2.2⟩
            rw [if_neg hB, if_neg hC']
      · have e := pixelStep_outside hin hs
        subst e
        intro x' y'
        rw [hpix x' y']
        by_cases hc : x' = x ∧ y0 + 1 ≤ y' ∧ y' < y0 + 1 + (n : Int) ∧
            (Point.mk x' y').In o1.Rect
        · have : x' = x ∧ y0 ≤ y' ∧ y' < y0 + ((n + 1 : Nat) : Int) ∧
              (Point.mk x' y').In o1.Rect :=
            ⟨hc.1, by omega, by push_cast; omega, hc.2.2.2⟩
          rw [if_pos hc, if_pos this]
        · have : ¬ (x' = x ∧ y0 ≤ y' ∧ y' < y0 + ((n + 1 : Nat) : Int) ∧
              (Point.mk x' y').In o1.Rect) := by
            intro hh
            apply hc
            refine ⟨hh.1, ?_, ?_, hh.2.2.2⟩
            · by_contra hlt
              have : y' = y0 := by omega
              rw [hh.1, this] at hh
              exact hin hh.2.2.2
            · have := hh.2.2.1
              push_cast at this
              omega
          rw [if_neg hc, if_neg this]

theorem rowLoop_char (p : Processor) (input : Image) (ny n : Nat) (x0 : Int)
    (out out' : NRGBAImage) (h : rowLoop p input ny n x0 out = some out') :
    ∀ x' y', out'.Pix x' y' =
      if x0 ≤ x' ∧ x' < x0 + n ∧ input.Bounds.Min.Y ≤ y' ∧ y' < input.Bounds.Min.Y + ny ∧
          (Point.mk x' y').In out.Rect
      then convertedPixel p input x' y' else out.Pix x' y' := by
  induction n generalizing x0 out with
  | zero =>
    have e : out' = out := by simpa [rowLoop] using h.symm
    subst e
    intro x' y'
    rw [if_neg]
    simp only [Int.Nat.cast_ofNat_Int, add_zero]
    omega
  | succ n ih =>
    rw [rowLoop] at h
    cases h1 : columnLoop p input x0 ny input.Bounds.Min.Y out with
    | none => rw [h1] at h; cases h
    | some o1 =>
      rw [h1] at h
      have hr1 := columnLoop_rect _ _ _ _ _ _ _ h1
      have hpix1 := columnLoop_char _ _ _ _ _ _ _ h1
      have hpix := ih (x0 + 1) o1 h
      intro x' y'
      rw [hpix x' y', hpix1 x' y', hr1]
      by_cases hA : x0 + 1 ≤ x' ∧ x' < x0 + 1 + (n : Int) ∧ input.Bounds.Min.Y ≤ y' ∧
          y' < input.Bounds.Min.Y + ny ∧ (Point.mk x' y').In out.Rect
      · have hB : x0 ≤ x' ∧ x' < x0 + ((n + 1 : Nat) : Int) ∧ input.Bounds.Min.Y ≤ y' ∧
            y' < input.Bounds.Min.Y + ny ∧ (Point.mk x' y').In out.Rect :=
          ⟨by omega, by push_cast; omega, hA.2.2.1, hA.2.2.2.1, hA.2.2.2.2⟩
        rw [if_pos hA, if_pos hB]
      · rw [if_neg hA]
        by_cases hC : x' = x0 ∧ input.Bounds.Min.Y ≤ y' ∧ y' < input.Bounds.Min.Y + ny ∧
            (Point.mk x' y').In out.Rect
        · have hB : x0 ≤ x' ∧ x' < x0 + ((n + 1 : Nat) : Int) ∧ input.Bounds.Min.Y ≤ y' ∧
              y' < input.Bounds.Min.Y + ny ∧ (Point.mk x' y').In out.Rect :=
            ⟨by omega, by push_cast; omega, hC.2.1, hC.2.2.1, hC.2.2.2⟩
          rw [if_pos hC, if_pos hB]
        · have hB : ¬ (x0 ≤ x' ∧ x' < x0 + ((n + 1 : Nat) : Int) ∧ input.Bounds.Min.Y ≤ y' ∧
              y' < input.Bounds.Min.Y + ny ∧ (Point.mk x' y').In out.Rect) := by
            intro hh
            by_cases hx : x' = x0
            · exact hC ⟨hx, hh.2.2.1, hh.2.2.2.1, hh.2.2.2.2⟩
            · apply hA
              have := hh.2.1
              push_cast at this
              exact ⟨by omega, by omega, hh.2.2.1, hh.2.2.2.1, hh.2.2.2.2⟩
          rw [if_neg hC, if_neg hB]

theorem columnLoop_total (p : Processor) (input : Image) (x : Int) (n : Nat) (y0 : Int)
    (out : NRGBAImage)
    (hp : ∀ y, y0 ≤ y → y < y0 + n → stepOk p input out.Rect x y) :
    ∃ out', columnLoop p input x n y0 out = some out' := by
  induction n generalizing y0 out with
  | zero => exact ⟨out, rfl⟩
  | succ n ih =>
    rw [columnLoop]
    obtain ⟨o1, hs⟩ := pixelStep_of_stepOk (hp y0 (le_refl _) (by push_cast; omega))
    rw [hs]
    apply ih (y0 + 1) o1
    intro y h1 h2
    rw [pixelStep_rect hs]
    exact hp y (by omega) (by push_cast; omega)

theorem rowLoop_total (p : Processor) (input : Image) (ny n : Nat) (x0 : Int)
    (out : NRGBAImage)
    (hp : ∀ x y, x0 ≤ x → x < x0 + n → input.Bounds.Min.Y ≤ y →
      y < input.Bounds.Min.Y + ny → stepOk p input out.Rect x y) :
    ∃ out', rowLoop p input ny n x0 out = some out' := by
  induction n generalizing x0 out with
  | zero => exact ⟨out, rfl⟩
  | succ n ih =>
    rw [rowLoop]
    obtain ⟨o1, h1⟩ := columnLoop_total p input x0 ny input.Bounds.Min.Y out
      (fun y hy1 hy2 => hp x0 y (le_refl _) (by push_cast; omega) hy1 hy2)
    rw [h1]
    apply ih (x0 + 1) o1
    intro x y hx1 hx2 hy1 hy2
    rw [columnLoop_rect _ _ _ _ _ _ _ h1]
    exact hp x y (by omega) (by push_cast; omega) hy1 hy2

theorem yLoop_eq (p : Processor) (input : Image) (x : Int)
    (hmax : input.Bounds.Max.Y < maxInt) (n fuel : Nat) (y : Int) (out : NRGBAImage)
    (hy : minInt ≤ y) (hn : n = (input.Bounds.Max.Y + 1 - y).toNat) (hf : n < fuel) :
    yLoop p input x fuel y out = Run.ofOption (columnLoop p input x n y out) := by
  induction n generalizing fuel y out with
  | zero =>
    obtain ⟨f, rfl⟩ : ∃ f, fuel = f + 1 := ⟨fuel - 1, by omega⟩
    rw [yLoop, if_neg (by omega)]
    rfl
  | succ n ih =>
    obtain ⟨f, rfl⟩ : ∃ f, fuel = f + 1 := ⟨fuel - 1, by omega⟩
    rw [yLoop, if_pos (by omega), columnLoop]
    cases hs : pixelStep p input x y out with
    | none => rfl
    | some o =>
      have hw : wrapInt (y + 1) = y + 1 :=
        wrapInt_of_isInt (by omega) (by omega)
      simp only [hw]
      exact ih f (y + 1) o (by omega) (by omega) (by omega)

theorem xLoop_eq (p : Processor) (input : Image) (fuelY : Nat)
    (hmaxX : input.Bounds.Max.X < maxInt) (hmaxY : input.Bounds.Max.Y < maxInt)
    (hfy : (input.Bounds.Max.Y + 1 - input.Bounds.Min.Y).toNat < fuelY)
    (n fuel : Nat) (x : Int) (out : NRGBAImage)
    (hx : minInt ≤ x) (hn : n = (input.Bounds.Max.X + 1 - x).toNat) (hf : n < fuel) :
    xLoop p input fuelY fuel x out =
      Run.ofOption (rowLoop p input
        (input.Bounds.Max.Y + 1 - input.Bounds.Min.Y).toNat n x out) := by
  induction n generalizing fuel x out with
  | zero =>
    obtain ⟨f, rfl⟩ : ∃ f, fuel = f + 1 := ⟨fuel - 1, by omega⟩
    rw [xLoop, if_neg (by omega)]
    rfl
  | succ n ih =>
    obtain ⟨f, rfl⟩ : ∃ f, fuel = f + 1 := ⟨fuel - 1, by omega⟩
    rw [xLoop, if_pos (by omega), rowLoop,
      yLoop_eq p input x hmaxY _ fuelY _ out input.inRange.2.1.1 rfl hfy]
    cases hs : columnLoop p input x (input.Bounds.Max.Y + 1 - input.Bounds.Min.Y).toNat
        input.Bounds.Min.Y out with
    | none => rfl
    | some o =>
      have hw : wrapInt (x + 1) = x + 1 :=
        wrapInt_of_isInt (by omega) (by omega)
      simp only [Run.ofOption, hw]
      exact ih f (x + 1) o (by omega) (by omega) (by omega)

theorem ConvertImage_spec (maxAlloc : Int) (input : Image) (p : Processor)
    (hbuf : (NewNRGBA maxAlloc input.Bounds).isSome)
    (hmax : input.Bounds.Max.X < maxInt ∧ input.Bounds.Max.Y < maxInt)
    (hstep : ∀ x y, input.Bounds.Min.X ≤ x → x ≤ input.Bounds.Max.X →
      input.Bounds.Min.Y ≤ y → y ≤ input.Bounds.Max.Y → stepOk p input input.Bounds x y) :
    ∃ N out, (∀ fuel, N ≤ fuel → ConvertImage maxAlloc fuel input p = .returns out) ∧
      out.Rect = input.Bounds ∧
      ∀ x y, out.At x y =
        if (Point.mk x y).In input.Bounds then .nrgba (convertedPixel p input x y)
        else .nrgba ⟨0, 0, 0, 0⟩ := by
  have hnew : NewNRGBA maxAlloc input.Bounds
      = some ⟨input.Bounds, fun _ _ => ⟨0, 0, 0, 0⟩⟩ := by
    unfold NewNRGBA at hbuf ⊢
    cases hb : pixelBufferLength 4 input.Bounds with
    | none => rw [hb] at hbuf; cases hbuf
    | some n =>
      rw [hb] at hbuf
      simp only [] at hbuf ⊢
      by_cases hn : n ≤ maxAlloc
      · rw [if_pos hn]
      · rw [if_neg hn] at hbuf; cases hbuf
  obtain ⟨out, ho⟩ := rowLoop_total p input
    (input.Bounds.Max.Y + 1 - input.Bounds.Min.Y).toNat
    (input.Bounds.Max.X + 1 - input.Bounds.Min.X).toNat input.Bounds.Min.X
    ⟨input.Bounds, fun _ _ => ⟨0, 0, 0, 0⟩⟩
    (fun x y hx1 hx2 hy1 hy2 => hstep x y hx1 (by omega) hy1 (by omega))
  have hr : out.Rect = input.Bounds := rowLoop_rect _ _ _ _ _ _ _ ho
  have hpix := rowLoop_char _ _ _ _ _ _ _ ho
  refine ⟨(input.Bounds.Max.X + 1 - input.Bounds.Min.X).toNat +
    (input.Bounds.Max.Y + 1 - input.Bounds.Min.Y).toNat + 1, out, ?_, hr, ?_⟩
  · intro fuel hf
    unfold ConvertImage
    rw [hnew]
    simp only []
    rw [xLoop_eq p input fuel hmax.1 hmax.2 (by omega) _ fuel _ _ input.inRange.1.1 rfl
      (by omega), ho]
    rfl
  · intro x y
    unfold NRGBAImage.At
    rw [hr, hpix x y]
    by_cases hin : (Point.mk x y).In input.Bounds
    · have h' := hin
      simp only [Point.In] at h'
      rw [if_pos hin, if_pos hin, if_pos]
      refine ⟨h'.1, ?_, h'.2.2.1, ?_, hin⟩
      · rw [Int.toNat_of_nonneg (by omega)]; omega
      · rw [Int.toNat_of_nonneg (by omega)]; omega
    · rw [if_neg hin, if_neg hin]

theorem yLoop_ne_panics (p : Processor) (input : Image) (x : Int)
    (hnp : ∀ x y out, pixelStep p input x y out ≠ none) (fuel : Nat) (y : Int)
    (out : NRGBAImage) : yLoop p input x fuel y out ≠ .panics := by
  induction fuel generalizing y out with
  | zero => simp [yLoop]
  | succ f ih =>
    rw [yLoop]
    split
    · cases hs : pixelStep p input x y out with
      | none => exact absurd hs (hnp x y out)
      | some o => exact ih _ o
    · simp

theorem xLoop_unfinished (p : Processor) (input : Image) (fuelY : Nat)
    (hmax : input.Bounds.Max.X = maxInt)
    (hnp : ∀ x y out, pixelStep p input x y out ≠ none) (fuel : Nat) (x : Int)
    (out : NRGBAImage) (hx : x ≤ maxInt) :
    xLoop p input fuelY fuel x out = .unfinished := by
  induction fuel generalizing x out with
  | zero => rfl
  | succ f ih =>
    rw [xLoop, if_pos (by omega)]
    cases hy : yLoop p input x fuelY input.Bounds.Min.Y out with
    | returns o => exact ih _ o (wrapInt_le _)
    | panics => exact absurd hy (yLoop_ne_panics p input x hnp _ _ _)
    | unfinished => rfl

/-! ### The naive processor -/

theorem premul_le (v a : Fin 256) : premul v a ≤ 65535 := by
  rw [premul_eq]
  have hv : v.val ≤ 255 := by have := v.isLt; omega
  have ha : a.val ≤ 255 := by have := a.isLt; omega
  have h : v.val * a.val ≤ 255 * 255 := Nat.mul_le_mul hv ha
  have e : 257 * v.val * a.val = 257 * (v.val * a.val) := by ring
  rw [e]
  omega

theorem RGBA_le (c : Color) :
    c.RGBA.1 ≤ 65535 ∧ c.RGBA.2.1 ≤ 65535 ∧ c.RGBA.2.2.1 ≤ 65535 ∧ c.RGBA.2.2.2 ≤ 65535 := by
  cases c with
  | nrgba n =>
    refine ⟨premul_le _ _, premul_le _ _, premul_le _ _, ?_⟩
    show n.A.val ||| (n.A.val <<< 8) ≤ 65535
    rw [or_shl8 _ n.A.isLt]
    have := n.A.isLt
    omega
  | other r g b a =>
    have := r.isLt
    have := g.isLt
    have := b.isLt
    have := a.isLt
    simp only [Color.RGBA]
    omega

theorem sqDiff_eq (x y : Nat) (hx : x ≤ 65535) (hy : y ≤ 65535) :
    sqDiff x y = Nat.dist x y ^ 2 / 4 := by
  have hd : Nat.dist x y ≤ 65535 := by unfold Nat.dist; omega
  have hsq : Nat.dist x y * Nat.dist x y ≤ 65535 * 65535 := Nat.mul_le_mul hd hd
  have key : ((x + 2 ^ 32 - y) % 2 ^ 32 * ((x + 2 ^ 32 - y) % 2 ^ 32)) % 2 ^ 32
      = Nat.dist x y * Nat.dist x y := by
    by_cases h : y ≤ x
    · have e1 : (x + 2 ^ 32 - y) % 2 ^ 32 = x - y := by omega
      have e2 : Nat.dist x y = x - y := by unfold Nat.dist; omega
      rw [e1, e2]
      rw [e2] at hsq
      exact Nat.mod_eq_of_lt (by omega)
    · have e2 : Nat.dist x y = y - x := by unfold Nat.dist; omega
      rw [e2] at hsq ⊢
      obtain ⟨k, hk⟩ : ∃ k, k = y - x := ⟨_, rfl⟩
      obtain ⟨t, ht⟩ : ∃ t, t = 2 ^ 32 - 2 * k := ⟨_, rfl⟩
      have e1 : (x + 2 ^ 32 - y) % 2 ^ 32 = k + t := by omega
      rw [e1, ← hk]
      rw [← hk] at hsq
      have e3 : (k + t) * (k + t) = k * k + t * 2 ^ 32 := by
        have : 2 ^ 32 = 2 * k + t := by omega
        rw [this]; ring
      rw [e3, Nat.add_mul_mod_self_right]
      exact Nat.mod_eq_of_lt (by omega)
  have e4 : Nat.dist x y ^ 2 = Nat.dist x y * Nat.dist x y := sq _
  unfold sqDiff
  simp only []
  rw [key, Nat.shiftRight_eq_div_pow, e4]

theorem sqSum_eq (c v : Color) :
    sqSum c v = Nat.dist c.RGBA.1 v.RGBA.1 ^ 2 / 4 + Nat.dist c.RGBA.2.1 v.RGBA.2.1 ^ 2 / 4
      + Nat.dist c.RGBA.2.2.1 v.RGBA.2.2.1 ^ 2 / 4
      + Nat.dist c.RGBA.2.2.2 v.RGBA.2.2.2 ^ 2 / 4 ∧ sqSum c v < 2 ^ 32 - 1 := by
  obtain ⟨c1, c2, c3, c4⟩ := RGBA_le c
  obtain ⟨v1, v2, v3, v4⟩ := RGBA_le v
  have b : ∀ x y : Nat, x ≤ 65535 → y ≤ 65535 → Nat.dist x y ^ 2 / 4 ≤ 1073709056 := by
    intro x y hx hy
    have hd : Nat.dist x y ≤ 65535 := by unfold Nat.dist; omega
    have hsq : Nat.dist x y * Nat.dist x y ≤ 65535 * 65535 := Nat.mul_le_mul hd hd
    rw [sq]
    omega
  have b1 := b _ _ c1 v1
  have b2 := b _ _ c2 v2
  have b3 := b _ _ c3 v3
  have b4 := b _ _ c4 v4
  have e : sqSum c v = (sqDiff c.RGBA.1 v.RGBA.1 + sqDiff c.RGBA.2.1 v.RGBA.2.1
      + sqDiff c.RGBA.2.2.1 v.RGBA.2.2.1 + sqDiff c.RGBA.2.2.2 v.RGBA.2.2.2) % 2 ^ 32 := rfl
  rw [e, sqDiff_eq _ _ c1 v1, sqDiff_eq _ _ c2 v2, sqDiff_eq _ _ c3 v3, sqDiff_eq _ _ c4 v4]
  have hlt : Nat.dist c.RGBA.1 v.RGBA.1 ^ 2 / 4 + Nat.dist c.RGBA.2.1 v.RGBA.2.1 ^ 2 / 4
      + Nat.dist c.RGBA.2.2.1 v.RGBA.2.2.1 ^ 2 / 4
      + Nat.dist c.RGBA.2.2.2 v.RGBA.2.2.2 ^ 2 / 4 < 2 ^ 32 - 1 := by omega
  rw [Nat.mod_eq_of_lt (by omega)]
  exact ⟨rfl, hlt⟩

theorem indexLoop_spec (c : Color) (vs : List Color) (i ret bestSum : Nat)
    (hb : 0 < bestSum) :
    (indexLoop c vs i ret bestSum = ret ∧ ∀ v ∈ vs, bestSum ≤ sqSum c v) ∨
      ∃ k v, vs[k]? = some v ∧ indexLoop c vs i ret bestSum = i + k ∧ sqSum c v < bestSum ∧
        (∀ w ∈ vs, sqSum c v ≤ sqSum c w) ∧
        ∀ j w, j < k → vs[j]? = some w → sqSum c v < sqSum c w := by
  induction vs generalizing i ret bestSum with
  | nil => left; simp [indexLoop]
  | cons v vs ih =>
    rw [indexLoop]
    by_cases h1 : sqSum c v < bestSum
    · rw [if_pos h1]
      by_cases h0 : sqSum c v = 0
      · rw [if_pos h0]
        right
        refine ⟨0, v, by simp, by simp, h1, ?_, ?_⟩
        · intro w _; omega
        · intro j w hj; omega
      · rw [if_neg h0]
        right
        rcases ih (i + 1) i (sqSum c v) (by omega) with ⟨e, hall⟩ | ⟨k, u, hk, e, hlt, hmin, hfirst⟩
        · refine ⟨0, v, by simp, by simpa using e, h1, ?_, ?_⟩
          · intro w hw
            rcases List.mem_cons.1 hw with rfl | hw
            · exact le_refl _
            · exact hall w hw
          · intro j w hj; omega
        · refine ⟨k + 1, u, by simpa using hk, by rw [e]; omega, by omega, ?_, ?_⟩
          · intro w hw
            rcases List.mem_cons.1 hw with rfl | hw
            · omega
            · exact hmin w hw
          · intro j w hj hw
            cases j with
            | zero =>
              simp at hw
              rw [← hw]; exact hlt
            | succ j =>
              simp at hw
              exact hfirst j w (by omega) hw
    · rw [if_neg h1]
      rcases ih (i + 1) ret bestSum hb with ⟨e, hall⟩ | ⟨k, u, hk, e, hlt, hmin, hfirst⟩
      · left
        refine ⟨e, ?_⟩
        intro w hw
        rcases List.mem_cons.1 hw with rfl | hw
        · omega
        · exact hall w hw
      · right
        refine ⟨k + 1, u, by simpa using hk, by rw [e]; omega, hlt, ?_, ?_⟩
        · intro w hw
          rcases List.mem_cons.1 hw with rfl | hw
          · omega
          · exact hmin w hw
        · intro j w hj hw
          cases j with
          | zero =>
            simp at hw
            rw [← hw]; omega
          | succ j =>
            simp at hw
            exact hfirst j w (by omega) hw

theorem Palette_Convert_spec (p : List Color) (c : Color) (hne : p ≠ []) :
    ∃ (k : Nat) (v : Color), p[k]? = some v ∧ Palette.Convert p c = some v ∧
      (∀ w ∈ p, sqSum c v ≤ sqSum c w) ∧
      ∀ j w, j < k → p[j]? = some w → sqSum c v < sqSum c w := by
  have hlen : p.length ≠ 0 := by
    intro h; exact hne (List.length_eq_zero.1 h)
  rcases indexLoop_spec c p 0 0 (2 ^ 32 - 1) (by decide) with ⟨_, hall⟩ | ⟨k, v, hk, e, _, hmin, hfirst⟩
  · exfalso
    cases p with
    | nil => exact hne rfl
    | cons v vs =>
      have := hall v (List.mem_cons_self _ _)
      have := (sqSum_eq c v).2
      omega
  · refine ⟨k, v, hk, ?_, hmin, hfirst⟩
    unfold Palette.Convert Palette.Index
    rw [if_neg hlen, e, Nat.zero_add]
    exact hk



theorem isSolid_iff {c : Color} (h : c.isSolid) : ∃ r g b, c = solid r g b := by
  cases c with
  | nrgba n =>
    obtain ⟨r, g, b, a⟩ := n
    have ha : a = 255 := h
    subst ha
    exact ⟨r, g, b, rfl⟩
  | other r g b a => exact absurd h (by simp [Color.isSolid])

theorem colorDistance_solid (r g b r' g' b' : Fin 256) :
    colorDistance (solid r g b) (solid r' g' b') =
      Nat.dist r.val r'.val ^ 2 + Nat.dist g.val g'.val ^ 2 + Nat.dist b.val b'.val ^ 2 := by
  simp [colorDistance, colorToArray_solid, distance, Nat.dist]

theorem sq_mod_four (n : Nat) : n ^ 2 % 4 ≤ 1 := by
  have h := Nat.pow_mod n 2 4
  have h4 : n % 4 < 4 := Nat.mod_lt _ (by decide)
  rw [h]
  interval_cases (n % 4) <;> decide

theorem sqSum_solid (r g b r' g' b' : Fin 256) :
    sqSum (solid r g b) (solid r' g' b') =
      66049 * colorDistance (solid r g b) (solid r' g' b') / 4 := by
  rw [(sqSum_eq _ _).1, colorDistance_solid, RGBA_solid, RGBA_solid]
  simp only [Nat.dist_mul_left, Nat.dist_self]
  have e : ∀ d : Nat, (257 * d) ^ 2 = 66049 * d ^ 2 := by intro d; ring
  rw [e, e, e]
  have h1 := sq_mod_four (Nat.dist r.val r'.val)
  have h2 := sq_mod_four (Nat.dist g.val g'.val)
  have h3 := sq_mod_four (Nat.dist b.val b'.val)
  have z : (0 : Nat) ^ 2 / 4 = 0 := by decide
  rw [z]
  generalize Nat.dist r.val r'.val ^ 2 = A at h1 ⊢
  generalize Nat.dist g.val g'.val ^ 2 = B at h2 ⊢
  generalize Nat.dist b.val b'.val ^ 2 = C at h3 ⊢
  obtain ⟨a, ha⟩ : ∃ a, A = 4 * a ∨ A = 4 * a + 1 := ⟨A / 4, by omega⟩
  obtain ⟨b, hb⟩ : ∃ b, B = 4 * b ∨ B = 4 * b + 1 := ⟨B / 4, by omega⟩
  obtain ⟨c, hc⟩ : ∃ c, C = 4 * c ∨ C = 4 * c + 1 := ⟨C / 4, by omega⟩
  rcases ha with rfl | rfl <;> rcases hb with rfl | rfl <;> rcases hc with rfl | rfl <;> omega

theorem sqSum_le_iff_solid {c v w : Color} (hc : c.isSolid) (hv : v.isSolid) (hw : w.isSolid) :
    (sqSum c v ≤ sqSum c w ↔ colorDistance c v ≤ colorDistance c w) ∧
      (sqSum c v < sqSum c w ↔ colorDistance c v < colorDistance c w) := by
  obtain ⟨r, g, b, rfl⟩ := isSolid_iff hc
  obtain ⟨r1, g1, b1, rfl⟩ := isSolid_iff hv
  obtain ⟨r2, g2, b2, rfl⟩ := isSolid_iff hw
  rw [sqSum_solid, sqSum_solid]
  constructor <;> omega

theorem colorDistance_eq_zero {c v : Color} (hc : c.isSolid) (hv : v.isSolid)
    (h : colorDistance c v = 0) : v = c := by
  obtain ⟨r, g, b, rfl⟩ := isSolid_iff hc
  obtain ⟨r1, g1, b1, rfl⟩ := isSolid_iff hv
  rw [colorDistance_solid] at h
  have h1 : Nat.dist r.val r1.val ^ 2 = 0 := by omega
  have h2 : Nat.dist g.val g1.val ^ 2 = 0 := by omega
  have h3 : Nat.dist b.val b1.val ^ 2 = 0 := by omega
  have e1 := Nat.eq_of_dist_eq_zero (pow_eq_zero_iff (by decide) |>.1 h1)
  have e2 := Nat.eq_of_dist_eq_zero (pow_eq_zero_iff (by decide) |>.1 h2)
  have e3 := Nat.eq_of_dist_eq_zero (pow_eq_zero_iff (by decide) |>.1 h3)
  rw [Fin.ext e1, Fin.ext e2, Fin.ext e3]

theorem colorDistance_self (c : Color) : colorDistance c c = 0 := by
  simp [colorDistance, distance]

theorem naive_Convert_member {P : List Color} {c : Color} (hP : ∀ p ∈ P, p.isSolid)
    (hc : c ∈ P) : NewNaiveProcessor P c = some c := by
  have hne : P ≠ [] := List.ne_nil_of_mem hc
  obtain ⟨k, v, hk, e, hmin, _⟩ := Palette_Convert_spec P c hne
  have hvP : v ∈ P := List.getElem?_mem hk
  have h1 := hmin c hc
  rw [(sqSum_le_iff_solid (hP c hc) (hP v hvP) (hP c hc)).1, colorDistance_self] at h1
  have := colorDistance_eq_zero (hP c hc) (hP v hvP) (by omega)
  show Palette.Convert P c = some c
  rw [e, this]



/-! ### The k-d tree processor -/

theorem sortByAxis_perm (axis : Nat) (points : List (List Nat)) :
    (sortByAxis axis points).Perm points :=
  List.perm_insertionSort _ _

theorem sortByAxis_sorted (axis : Nat) (points : List (List Nat)) :
    (sortByAxis axis points).Pairwise (fun a b => coord a axis ≤ coord b axis) := by
  haveI : IsTotal (List Nat) (fun a b => coord a axis ≤ coord b axis) :=
    ⟨fun a b => Nat.le_total _ _⟩
  haveI : IsTrans (List Nat) (fun a b => coord a axis ≤ coord b axis) :=
    ⟨fun _ _ _ h1 h2 => Nat.le_trans h1 h2⟩
  exact List.sorted_insertionSort _ _

theorem createAux_spec (fuel : Nat) (points : List (List Nat)) (depth : Nat)
    (h : points.length ≤ fuel) :
    (createAux fuel points depth).points.Perm points ∧
      (createAux fuel points depth).Ordered depth := by
  induction fuel generalizing points depth with
  | zero =>
    have : points = [] := List.length_eq_zero.1 (by omega)
    subst this
    exact ⟨by simp [createAux, KdTree.points], by simp [createAux, KdTree.Ordered]⟩
  | succ fuel ih =>
    have hperm := sortByAxis_perm (depth % 4) points
    have hsorted := sortByAxis_sorted (depth % 4) points
    have hlen : (sortByAxis (depth % 4) points).length = points.length := hperm.length_eq
    rw [createAux]
    generalize hs : sortByAxis (depth % 4) points = sorted at hperm hsorted hlen
    cases hd : sorted.drop (sorted.length / 2) with
    | nil =>
      have h0 : sorted.length ≤ sorted.length / 2 := List.drop_eq_nil_iff.1 hd
      have : sorted = [] := List.length_eq_zero.1 (by omega)
      subst this
      have : points = [] := hperm.symm.eq_nil
      subst this
      exact ⟨by simp [KdTree.points], by simp [KdTree.Ordered]⟩
    | cons p right =>
      have hsplit : sorted.take (sorted.length / 2) ++ p :: right = sorted := by
        rw [← hd]; exact List.take_append_drop _ _
      have hl1 : (sorted.take (sorted.length / 2)).length ≤ fuel := by
        rw [List.length_take]; omega
      have hl2 : right.length ≤ fuel := by
        have := congrArg List.length hsplit
        simp only [List.length_append, List.length_cons] at this
        omega
      obtain ⟨pl, ol⟩ := ih (sorted.take (sorted.length / 2)) (depth + 1) hl1
      obtain ⟨pr, or⟩ := ih right (depth + 1) hl2
      rw [← hsplit] at hsorted
      obtain ⟨_, h2, h3⟩ := List.pairwise_append.1 hsorted
      simp only []
      constructor
      · simp only [KdTree.points]
        refine List.Perm.trans ?_ hperm
        have hm := (List.Perm.cons p (List.Perm.append pl pr)).trans List.perm_middle.symm
        rw [hsplit] at hm
        exact hm
      · simp only [KdTree.Ordered]
        refine ⟨?_, ?_, ol, or⟩
        · intro x hx
          exact h3 x (pl.mem_iff.1 hx) p (List.mem_cons_self _ _)
        · intro x hx
          exact (List.pairwise_cons.1 h2).1 x (pr.mem_iff.1 hx)

theorem Create_spec (points : List (List Nat)) :
    (Create points 0).points.Perm points ∧ (Create points 0).Ordered 0 :=
  createAux_spec points.length points 0 (le_refl _)

theorem plane_le_distance (q x : List Nat) (depth : Nat) :
    Nat.dist (coord q (depth % 4)) (coord x (depth % 4)) ^ 2 ≤ distance q x := by
  have h4 : depth % 4 < 4 := Nat.mod_lt _ (by decide)
  unfold distance coord
  interval_cases (depth % 4) <;> omega

theorem dist_sq_mono {a b c d : Nat} (h : Nat.dist a b ≤ Nat.dist c d) :
    Nat.dist a b ^ 2 ≤ Nat.dist c d ^ 2 :=
  Nat.pow_le_pow_left h 2

theorem nearestAux_spec (q : List Nat) (t : KdTree) (depth : Nat) (best : List Nat)
    (ho : t.Ordered depth) :
    (nearestAux q t depth best = best ∨ nearestAux q t depth best ∈ t.points) ∧
      distance q (nearestAux q t depth best) ≤ distance q best ∧
      ∀ x ∈ t.points, distance q (nearestAux q t depth best) ≤ distance q x := by
  induction t generalizing depth best with
  | nil => simp [nearestAux, KdTree.points]
  | node p l r ihl ihr =>
    obtain ⟨hl, hr, ol, or⟩ := ho
    obtain ⟨b1, hb1⟩ : ∃ b1, b1 = (if distance q p < distance q best then p else best) :=
      ⟨_, rfl⟩
    have hb1le : distance q b1 ≤ distance q best := by
      rw [hb1]; split <;> omega
    have hb1p : distance q b1 ≤ distance q p := by
      rw [hb1]; split <;> omega
    have hb1mem : b1 = best ∨ b1 = p := by
      rw [hb1]; split
      · right; rfl
      · left; rfl
    rw [nearestAux, ← hb1]
    simp only [KdTree.points, List.mem_cons, List.mem_append]
    by_cases hside : coord q (depth % 4) < coord p (depth % 4)
    · rw [if_pos hside]
      obtain ⟨m2, le2, min2⟩ := ihl (depth + 1) b1 ol
      generalize nearestAux q l (depth + 1) b1 = b2 at m2 le2 min2 ⊢
      have hb2mem : b2 = best ∨ b2 = p ∨ b2 ∈ l.points ∨ b2 ∈ r.points := by
        rcases m2 with e | e
        · rcases hb1mem with e' | e'
          · left; rw [e, e']
          · right; left; rw [e, e']
        · right; right; left; exact e
      by_cases hplane : Nat.dist (coord q (depth % 4)) (coord p (depth % 4)) ^ 2 < distance q b2
      · rw [if_pos hplane]
        obtain ⟨m3, le3, min3⟩ := ihr (depth + 1) b2 or
        generalize nearestAux q r (depth + 1) b2 = b3 at m3 le3 min3 ⊢
        refine ⟨?_, by omega, ?_⟩
        · rcases m3 with e | e
          · rw [e]; exact hb2mem
          · right; right; right; exact e
        · rintro x (rfl | hx | hx)
          · omega
          · have := min2 x hx; omega
          · exact min3 x hx
      · rw [if_neg hplane]
        refine ⟨hb2mem, by omega, ?_⟩
        rintro x (rfl | hx | hx)
        · omega
        · exact min2 x hx
        · have h1 := hr x hx
          have h2 := plane_le_distance q x depth
          have h3 : Nat.dist (coord q (depth % 4)) (coord p (depth % 4)) ^ 2 ≤
              Nat.dist (coord q (depth % 4)) (coord x (depth % 4)) ^ 2 :=
            dist_sq_mono (by unfold Nat.dist; omega)
          omega
    · rw [if_neg hside]
      obtain ⟨m2, le2, min2⟩ := ihr (depth + 1) b1 or
      generalize nearestAux q r (depth + 1) b1 = b2 at m2 le2 min2 ⊢
      have hb2mem : b2 = best ∨ b2 = p ∨ b2 ∈ l.points ∨ b2 ∈ r.points := by
        rcases m2 with e | e
        · rcases hb1mem with e' | e'
          · left; rw [e, e']
          · right; left; rw [e, e']
        · right; right; right; exact e
      by_cases hplane : Nat.dist (coord q (depth % 4)) (coord p (depth % 4)) ^ 2 < distance q b2
      · rw [if_pos hplane]
        obtain ⟨m3, le3, min3⟩ := ihl (depth + 1) b2 ol
        generalize nearestAux q l (depth + 1) b2 = b3 at m3 le3 min3 ⊢
        refine ⟨?_, by omega, ?_⟩
        · rcases m3 with e | e
          · rw [e]; exact hb2mem
          · right; right; left; exact e
        · rintro x (rfl | hx | hx)
          · omega
          · exact min3 x hx
          · have := min2 x hx; omega
      · rw [if_neg hplane]
        refine ⟨hb2mem, by omega, ?_⟩
        rintro x (rfl | hx | hx)
        · omega
        · have h1 := hl x hx
          have h2 := plane_le_distance q x depth
          have h3 : Nat.dist (coord q (depth % 4)) (coord p (depth % 4)) ^ 2 ≤
              Nat.dist (coord q (depth % 4)) (coord x (depth % 4)) ^ 2 :=
            dist_sq_mono (by unfold Nat.dist; omega)
          omega
        · exact min2 x hx

theorem NearestNeighbour_spec (points : List (List Nat)) (q : List Nat) (hne : points ≠ []) :
    ∃ pt, NearestNeighbour (Create points 0) q = some pt ∧ pt ∈ points ∧
      ∀ x ∈ points, distance q pt ≤ distance q x := by
  obtain ⟨hperm, hord⟩ := Create_spec points
  cases ht : Create points 0 with
  | nil =>
    rw [ht] at hperm
    exact absurd hperm.symm.eq_nil hne
  | node p l r =>
    rw [ht] at hperm hord
    obtain ⟨hm, _, hmin⟩ := nearestAux_spec q (.node p l r) 0 p hord
    refine ⟨_, rfl, ?_, ?_⟩
    · apply hperm.mem_iff.1
      rcases hm with e | e
      · rw [e]; simp [KdTree.points]
      · exact e
    · intro x hx
      exact hmin x (hperm.mem_iff.2 hx)



theorem isSolid_solid8 {c : Color} (h : c.isSolid) : c.solid8 := by
  obtain ⟨r, g, b, rfl⟩ := isSolid_iff h
  unfold Color.solid8 Color.eightBit
  rw [RGBA_solid]
  simp

theorem colorToArray_eq (c : Color) :
    colorToArray c =
      [c.RGBA.1 >>> 8, c.RGBA.2.1 >>> 8, c.RGBA.2.2.1 >>> 8, c.RGBA.2.2.2 >>> 8] := rfl

theorem shift_of_mod {a : Nat} (h : a % 257 = 0) (hle : a ≤ 65535) : a >>> 8 = a / 257 := by
  rw [Nat.shiftRight_eq_div_pow]
  omega

theorem colorToArray_solid8 {v : Color} (hv : v.solid8) :
    ∃ r g b : Fin 256, colorToArray v = [r.val, g.val, b.val, 255] := by
  obtain ⟨v1, v2, v3, _⟩ := RGBA_le v
  obtain ⟨⟨h1, h2, h3⟩, ha⟩ := hv
  refine ⟨⟨v.RGBA.1 / 257, by omega⟩, ⟨v.RGBA.2.1 / 257, by omega⟩,
    ⟨v.RGBA.2.2.1 / 257, by omega⟩, ?_⟩
  rw [colorToArray_eq, shift_of_mod h1 v1, shift_of_mod h2 v2, shift_of_mod h3 v3, ha]
  rfl

theorem cost_form (c v : Color) (hc : c.eightBit) (hv : v.solid8) :
    sqSum c v = 66049 * rgbDist c v / 4 + Nat.dist c.RGBA.2.2.2 65535 ^ 2 / 4 ∧
      colorDistance c v = rgbDist c v + Nat.dist (c.RGBA.2.2.2 >>> 8) 255 ^ 2 := by
  obtain ⟨c1, c2, c3, c4⟩ := RGBA_le c
  obtain ⟨v1, v2, v3, v4⟩ := RGBA_le v
  obtain ⟨⟨hv1, hv2, hv3⟩, hva⟩ := hv
  obtain ⟨hc1, hc2, hc3⟩ := hc
  constructor
  · have e : ∀ a b : Nat, a % 257 = 0 → b % 257 = 0 →
        Nat.dist a b ^ 2 = 66049 * Nat.dist (a / 257) (b / 257) ^ 2 := by
      intro a b ha hb
      have ea : a = 257 * (a / 257) := by omega
      have eb : b = 257 * (b / 257) := by omega
      conv_lhs => rw [ea, eb, Nat.dist_mul_left]
      ring
    rw [(sqSum_eq c v).1, hva, e _ _ hc1 hv1, e _ _ hc2 hv2, e _ _ hc3 hv3]
    unfold rgbDist
    have h1 := sq_mod_four (Nat.dist (c.RGBA.1 / 257) (v.RGBA.1 / 257))
    have h2 := sq_mod_four (Nat.dist (c.RGBA.2.1 / 257) (v.RGBA.2.1 / 257))
    have h3 := sq_mod_four (Nat.dist (c.RGBA.2.2.1 / 257) (v.RGBA.2.2.1 / 257))
    generalize Nat.dist (c.RGBA.1 / 257) (v.RGBA.1 / 257) ^ 2 = A at h1 ⊢
    generalize Nat.dist (c.RGBA.2.1 / 257) (v.RGBA.2.1 / 257) ^ 2 = B at h2 ⊢
    generalize Nat.dist (c.RGBA.2.2.1 / 257) (v.RGBA.2.2.1 / 257) ^ 2 = C at h3 ⊢
    generalize Nat.dist c.RGBA.2.2.2 65535 ^ 2 / 4 = K
    obtain ⟨a, ha⟩ : ∃ a, A = 4 * a ∨ A = 4 * a + 1 := ⟨A / 4, by omega⟩
    obtain ⟨b, hb⟩ : ∃ b, B = 4 * b ∨ B = 4 * b + 1 := ⟨B / 4, by omega⟩
    obtain ⟨d, hd⟩ : ∃ d, C = 4 * d ∨ C = 4 * d + 1 := ⟨C / 4, by omega⟩
    rcases ha with rfl | rfl <;> rcases hb with rfl | rfl <;> rcases hd with rfl | rfl <;> omega
  · unfold colorDistance
    rw [colorToArray_eq, colorToArray_eq, shift_of_mod hc1 c1, shift_of_mod hc2 c2,
      shift_of_mod hc3 c3, shift_of_mod hv1 v1, shift_of_mod hv2 v2, shift_of_mod hv3 v3, hva]
    rfl

theorem sqSum_le_imp {c v w : Color} (hc : c.eightBit) (hv : v.solid8) (hw : w.solid8)
    (h : sqSum c v ≤ sqSum c w) : colorDistance c v ≤ colorDistance c w := by
  obtain ⟨e1, e2⟩ := cost_form c v hc hv
  obtain ⟨e3, e4⟩ := cost_form c w hc hw
  rw [e1, e3] at h
  rw [e2, e4]
  omega

theorem kdTree_Convert_spec (P : List Color) (c : Color) (hne : P ≠ [])
    (hP : ∀ p ∈ P, p.solid8) :
    ∃ r, NewKdTreeProcessor P c = some r ∧ r.isSolid ∧
      (∃ p ∈ P, colorToArray r = colorToArray p) ∧
      ∀ p ∈ P, colorDistance c r ≤ colorDistance c p := by
  have hne' : paletteToSlice P ≠ [] := by
    simpa [paletteToSlice] using hne
  obtain ⟨pt, hnn, hmem, hmin⟩ := NearestNeighbour_spec (paletteToSlice P) (colorToArray c) hne'
  obtain ⟨p0, hp0, rfl⟩ := List.mem_map.1 hmem
  obtain ⟨r, g, b, e⟩ := colorToArray_solid8 (hP p0 hp0)
  have h255 : toUint8 255 = 255 := by decide
  refine ⟨solid r g b, ?_, rfl, ⟨p0, hp0, by rw [colorToArray_solid, e]⟩, ?_⟩
  · unfold NewKdTreeProcessor kdTreeProcessor.Convert
    rw [hnn, e]
    simp [arrayToColor, toUint8_val, solid, h255]
  · intro p hp
    have := hmin _ (List.mem_map.2 ⟨p, hp, rfl⟩)
    unfold colorDistance
    rw [colorToArray_solid, ← e]
    exact this

theorem naive_Convert_spec (P : List Color) (c : Color) (hne : P ≠ [])
    (hc : c.eightBit) (hP : ∀ p ∈ P, p.solid8) :
    ∃ r, NewNaiveProcessor P c = some r ∧ r ∈ P ∧
      ∀ p ∈ P, colorDistance c r ≤ colorDistance c p := by
  obtain ⟨k, r, hk, e, hmin, _⟩ := Palette_Convert_spec P c hne
  have hr : r ∈ P := List.getElem?_mem hk
  exact ⟨r, e, hr, fun p hp => sqSum_le_imp hc (hP r hr) (hP p hp) (hmin p hp)⟩

theorem naive_Convert_some (P : List Color) (c : Color) (hne : P ≠ []) :
    ∃ r, NewNaiveProcessor P c = some r := by
  obtain ⟨_, r, _, e, _⟩ := Palette_Convert_spec P c hne
  exact ⟨r, e⟩

/-- C1: the code breaks the claim for a palette with a translucent entry.  For
the palette of the single colour `color.NRGBA{255, 255, 255, 100}`,
`colorToArray` gives the alpha-premultiplied channels `[100, 100, 100, 100]` and
`arrayToColor` rebuilds from them the non-premultiplied
`color.NRGBA{100, 100, 100, 100}`: `Convert` on the k-d tree processor returns
that colour, which is not a member of the palette, while `Convert` on the naive
processor returns the palette's entry. -/
theorem kdTree_Convert_not_member :
    NewKdTreeProcessor [.nrgba ⟨255, 255, 255, 100⟩] (solid 0 0 0)
        = some (.nrgba ⟨100, 100, 100, 100⟩) ∧
      Color.nrgba ⟨100, 100, 100, 100⟩ ∉ [Color.nrgba ⟨255, 255, 255, 100⟩] ∧
      colorToArray (.nrgba ⟨255, 255, 255, 100⟩) = [100, 100, 100, 100] ∧
      arrayToColor [100, 100, 100, 100] = some (.nrgba ⟨100, 100, 100, 100⟩) ∧
      NewNaiveProcessor [.nrgba ⟨255, 255, 255, 100⟩] (solid 0 0 0)
        = some (.nrgba ⟨255, 255, 255, 100⟩) := by
  decide

/-- C2 as the code has it.  For every non-empty palette `P` and every colour
`c`, `Convert(c)` on the processor of `NewNaiveProcessor(P)` returns the first
entry of `P`, in palette order, that minimises the sum, over the four
alpha-premultiplied 16-bit channels, of the squared difference divided by four
and rounded down; when `c` and the entries of `P` are opaque 8-bit colours,
this is the first entry whose squared Euclidean distance to `c` over the four
channels is minimal. -/
theorem naive_Convert_first_minimal (P : List Color) (c : Color) (hne : P ≠ []) :
    ∃ (k : Nat) (r : Color), P[k]? = some r ∧ NewNaiveProcessor P c = some r ∧
      (∀ p ∈ P, sqSum c r ≤ sqSum c p) ∧
      (∀ j p, j < k → P[j]? = some p → sqSum c r < sqSum c p) ∧
      (∀ v, sqSum c v =
        Nat.dist c.RGBA.1 v.RGBA.1 ^ 2 / 4 + Nat.dist c.RGBA.2.1 v.RGBA.2.1 ^ 2 / 4
          + Nat.dist c.RGBA.2.2.1 v.RGBA.2.2.1 ^ 2 / 4
          + Nat.dist c.RGBA.2.2.2 v.RGBA.2.2.2 ^ 2 / 4) ∧
      (c.isSolid → (∀ p ∈ P, p.isSolid) →
        (∀ p ∈ P, colorDistance c r ≤ colorDistance c p) ∧
        ∀ j p, j < k → P[j]? = some p → colorDistance c r < colorDistance c p) := by
  obtain ⟨k, r, hk, e, hmin, hfirst⟩ := Palette_Convert_spec P c hne
  have hr : r ∈ P := List.getElem?_mem hk
  refine ⟨k, r, hk, e, hmin, hfirst, fun v => (sqSum_eq c v).1, ?_⟩
  intro hc hP
  constructor
  · intro p hp
    exact (sqSum_le_iff_solid hc (hP r hr) (hP p hp)).1.1 (hmin p hp)
  · intro j p hj hjp
    exact (sqSum_le_iff_solid hc (hP r hr) (hP p (List.getElem?_mem hjp))).2.1
      (hfirst j p hj hjp)

theorem naive_Convert_first_minimal_witness :
    ∃ (k : Nat) (r : Color), [solid 255 255 255, solid 0 0 0, solid 32 32 32][k]? = some r ∧
      NewNaiveProcessor [solid 255 255 255, solid 0 0 0, solid 32 32 32] (solid 16 16 16)
        = some r ∧
      (∀ p ∈ [solid 255 255 255, solid 0 0 0, solid 32 32 32],
        colorDistance (solid 16 16 16) r ≤ colorDistance (solid 16 16 16) p) ∧
      ∀ j p, j < k → [solid 255 255 255, solid 0 0 0, solid 32 32 32][j]? = some p →
        colorDistance (solid 16 16 16) r < colorDistance (solid 16 16 16) p := by
  obtain ⟨k, r, h1, h2, _, _, _, h3⟩ := naive_Convert_first_minimal
    [solid 255 255 255, solid 0 0 0, solid 32 32 32] (solid 16 16 16) (by decide)
  exact ⟨k, r, h1, h2, h3 (by decide) (by decide)⟩

/-- C2 as stated fails for translucent colours.  With the palette
`{255,255,255,100}`, `{0,0,0,0}` and the query `{255,255,255,0}`, `Convert`
returns the second entry although the first is nearer over the four channels
`R`, `G`, `B`, `A` (10000 against 195075).  With the palette `{1,1,0,1}`,
`{1,0,0,1}` and the query `{0,0,0,1}`, `Convert` returns the first entry
although the second is nearer, over the four channels as stored and over the
four alpha-premultiplied 16-bit channels alike (1 against 2). -/
theorem naive_Convert_translucent_counterexample :
    (NewNaiveProcessor [.nrgba ⟨255, 255, 255, 100⟩, .nrgba ⟨0, 0, 0, 0⟩]
          (.nrgba ⟨255, 255, 255, 0⟩) = some (.nrgba ⟨0, 0, 0, 0⟩) ∧
        distance (NRGBA.channels ⟨255, 255, 255, 0⟩) (NRGBA.channels ⟨255, 255, 255, 100⟩)
          < distance (NRGBA.channels ⟨255, 255, 255, 0⟩) (NRGBA.channels ⟨0, 0, 0, 0⟩)) ∧
      (NewNaiveProcessor [.nrgba ⟨1, 1, 0, 1⟩, .nrgba ⟨1, 0, 0, 1⟩] (.nrgba ⟨0, 0, 0, 1⟩)
          = some (.nrgba ⟨1, 1, 0, 1⟩) ∧
        distance (NRGBA.channels ⟨0, 0, 0, 1⟩) (NRGBA.channels ⟨1, 0, 0, 1⟩)
          < distance (NRGBA.channels ⟨0, 0, 0, 1⟩) (NRGBA.channels ⟨1, 1, 0, 1⟩) ∧
        distance (Color.channels16 (.nrgba ⟨0, 0, 0, 1⟩)) (Color.channels16 (.nrgba ⟨1, 0, 0, 1⟩))
          < distance (Color.channels16 (.nrgba ⟨0, 0, 0, 1⟩))
              (Color.channels16 (.nrgba ⟨1, 1, 0, 1⟩))) := by
  decide



/-! ### `ConvertImage` with the two processors -/

theorem nrgbaModel_solid {c : Color} (h : c.isSolid) : Color.nrgba (nrgbaModel c) = c := by
  obtain ⟨r, g, b, rfl⟩ := isSolid_iff h
  rfl

theorem colorToArray_nrgbaModel {v : Color} (hv : v.solid8) :
    colorToArray (.nrgba (nrgbaModel v)) = colorToArray v := by
  cases v with
  | nrgba n => rfl
  | other r g b a =>
    obtain ⟨_, ha⟩ := hv
    have ha' : a.val = 65535 := ha
    have hr := r.isLt
    have hg := g.isLt
    have hb := b.isLt
    have e : ∀ x : Nat, x < 65536 → (toUint8 (x >>> 8)).val = x >>> 8 := by
      intro x hx
      simp only [toUint8, Nat.shiftRight_eq_div_pow]
      omega
    have h1 : nrgbaModel (.other r g b a) =
        ⟨toUint8 (r.val >>> 8), toUint8 (g.val >>> 8), toUint8 (b.val >>> 8), 255⟩ := by
      simp [nrgbaModel, ha']
    rw [h1]
    show colorToArray (solid _ _ _) = _
    rw [colorToArray_solid, e _ hr, e _ hg, e _ hb, colorToArray_eq]
    simp only [Color.RGBA, ha']
    rfl

/-- C3 as the code has it, for the images on which the call returns.  For
every image whose bounds end below the largest `int`, for which `image.NewNRGBA`
does not panic, and every processor, such that at every coordinate the loops
visit `input.At` and `p.Convert` return, with a colour that is not nil inside
the bounds: `ConvertImage` returns an image with the bounds of the input in
which, for every `(x, y)` with `Min.X <= x < Max.X` and `Min.Y <= y < Max.Y`,
the pixel is the `color.NRGBA` form of `p.Convert(input.At(x, y))`, which is
that colour itself, alpha included, whenever it is a `color.NRGBA`; at every
other coordinate, so for `x = Max.X` and for `y = Max.Y`, the pixel is the zero
colour. -/
theorem ConvertImage_pixels (maxAlloc : Int) (input : Image) (p : Processor)
    (hbuf : (NewNRGBA maxAlloc input.Bounds).isSome)
    (hmax : input.Bounds.Max.X < maxInt ∧ input.Bounds.Max.Y < maxInt)
    (hstep : ∀ x y, input.Bounds.Min.X ≤ x → x ≤ input.Bounds.Max.X →
      input.Bounds.Min.Y ≤ y → y ≤ input.Bounds.Max.Y → stepOk p input input.Bounds x y) :
    ∃ N out, (∀ fuel, N ≤ fuel → ConvertImage maxAlloc fuel input p = .returns out) ∧
      out.Rect = input.Bounds ∧
      (∀ x y, input.Bounds.Min.X ≤ x → x < input.Bounds.Max.X →
        input.Bounds.Min.Y ≤ y → y < input.Bounds.Max.Y →
        ∃ c c', input.At x y = .returns c ∧ p c = .returns (some c') ∧
          out.At x y = .nrgba (nrgbaModel c') ∧ ((∃ n, c' = .nrgba n) → out.At x y = c')) ∧
      (∀ x y, ¬ (input.Bounds.Min.X ≤ x ∧ x < input.Bounds.Max.X ∧
          input.Bounds.Min.Y ≤ y ∧ y < input.Bounds.Max.Y) →
        out.At x y = .nrgba ⟨0, 0, 0, 0⟩) := by
  obtain ⟨N, o, ho, hr, hat⟩ := ConvertImage_spec maxAlloc input p hbuf hmax hstep
  refine ⟨N, o, ho, hr, ?_, ?_⟩
  · intro x y h1 h2 h3 h4
    have hin : (Point.mk x y).In input.Bounds := ⟨h1, h2, h3, h4⟩
    obtain ⟨c, c', hA, hC, hn⟩ := hstep x y h1 (by omega) h3 (by omega)
    cases c' with
    | none => exact absurd rfl (hn hin)
    | some c' =>
      have e : o.At x y = .nrgba (nrgbaModel c') := by
        rw [hat x y, if_pos hin]
        simp [convertedPixel, hA, hC]
      refine ⟨c, c', hA, hC, e, ?_⟩
      rintro ⟨n, rfl⟩
      rw [e]
      rfl
  · intro x y hn
    rw [hat x y, if_neg]
    exact hn

theorem ConvertImage_pixels_witness :
    ∃ N out, (∀ fuel, N ≤ fuel →
        ConvertImage fourGiB fuel grayPixel (Processor.ofNaive [solid 0 0 0, solid 255 255 255])
          = .returns out) ∧
      out.Rect = grayPixel.Bounds ∧
      (∀ x y, grayPixel.Bounds.Min.X ≤ x → x < grayPixel.Bounds.Max.X →
        grayPixel.Bounds.Min.Y ≤ y → y < grayPixel.Bounds.Max.Y →
        ∃ c c', grayPixel.At x y = .returns c ∧
          Processor.ofNaive [solid 0 0 0, solid 255 255 255] c = .returns (some c') ∧
          out.At x y = .nrgba (nrgbaModel c') ∧ ((∃ n, c' = .nrgba n) → out.At x y = c')) ∧
      (∀ x y, ¬ (grayPixel.Bounds.Min.X ≤ x ∧ x < grayPixel.Bounds.Max.X ∧
          grayPixel.Bounds.Min.Y ≤ y ∧ y < grayPixel.Bounds.Max.Y) →
        out.At x y = .nrgba ⟨0, 0, 0, 0⟩) :=
  ConvertImage_pixels fourGiB grayPixel (Processor.ofNaive [solid 0 0 0, solid 255 255 255])
    (by decide) (by decide)
    (fun x y _ _ _ _ => by
      obtain ⟨r, hr⟩ := naive_Convert_some [solid 0 0 0, solid 255 255 255]
        (if x = 0 ∧ y = 0 then solid 128 128 128 else .nrgba ⟨0, 0, 0, 0⟩) (by decide)
      exact ⟨_, some r, rfl, congrArg Call.returns hr, fun _ => by simp⟩)

/-- C3 as stated fails at the coordinates with `x = Max.X` (or `y = Max.Y`),
which it counts in: for the one-pixel image of bounds `(0,0)-(1,1)` and the
naive processor of the palette of white alone, the output at `(1, 0)` is the
zero colour while `Convert` of the input's colour there is white.  Inside the
bounds the stored pixel is the `color.NRGBA` form of the converted colour: with a
palette whose one entry is a 16-bit colour of channels `0x1234`, the pixel at
`(0, 0)` is `color.NRGBA{0x12, 0x12, 0x12, 0xff}`, not that entry. -/
theorem ConvertImage_inclusive_bounds_counterexample :
    ((ConvertImage fourGiB 3 grayPixel (Processor.ofNaive [solid 255 255 255])).map
          (fun out => (out.Rect, out.At 1 0))
        = .returns (grayPixel.Bounds, .nrgba ⟨0, 0, 0, 0⟩) ∧
      grayPixel.Bounds.Min.X ≤ 1 ∧ (1 : Int) ≤ grayPixel.Bounds.Max.X ∧
      grayPixel.Bounds.Min.Y ≤ 0 ∧ (0 : Int) ≤ grayPixel.Bounds.Max.Y ∧
      grayPixel.At 1 0 = .returns (some (.nrgba ⟨0, 0, 0, 0⟩)) ∧
      Processor.ofNaive [solid 255 255 255] (some (.nrgba ⟨0, 0, 0, 0⟩))
        = .returns (some (solid 255 255 255))) ∧
    ((ConvertImage fourGiB 3 grayPixel
          (Processor.ofNaive [.other 0x1234 0x1234 0x1234 0xffff])).map
          (fun out => out.At 0 0) = .returns (.nrgba ⟨0x12, 0x12, 0x12, 0xff⟩) ∧
      grayPixel.At 0 0 = .returns (some (solid 128 128 128)) ∧
      Processor.ofNaive [.other 0x1234 0x1234 0x1234 0xffff] (some (solid 128 128 128))
        = .returns (some (.other 0x1234 0x1234 0x1234 0xffff))) := by
  decide

/-- C4 for 8-bit colours.  For every non-empty palette `P` of opaque 8-bit
colours: for every colour `c` with 8-bit red, green and blue channels the k-d
tree `Convert(c)` and the naive `Convert(c)` are at the same distance from `c`,
the least over `P`; and for every image on which the calls return (bounds that
end below the largest `int`, no panic of `image.NewNRGBA`, an `At` that returns
a colour at every coordinate the loops visit) and whose pixels have 8-bit red,
green and blue channels, the two `ConvertImage` results have equal bounds and, at
every coordinate of the image, pixels at the same distance from the input pixel,
the least over `P`. -/
theorem kdTree_naive_same_distance (maxAlloc : Int) (P : List Color) (hne : P ≠ [])
    (hP : ∀ p ∈ P, p.solid8) :
    (∀ c : Color, c.eightBit → ∃ r1 r2, NewKdTreeProcessor P c = some r1 ∧
        NewNaiveProcessor P c = some r2 ∧ colorDistance c r1 = colorDistance c r2 ∧
        ∀ p ∈ P, colorDistance c r1 ≤ colorDistance c p) ∧
      ∀ input : Image, (NewNRGBA maxAlloc input.Bounds).isSome →
        input.Bounds.Max.X < maxInt ∧ input.Bounds.Max.Y < maxInt →
        (∀ x y, input.Bounds.Min.X ≤ x → x ≤ input.Bounds.Max.X →
          input.Bounds.Min.Y ≤ y → y ≤ input.Bounds.Max.Y →
          ∃ c, input.At x y = .returns (some c) ∧
            ((Point.mk x y).In input.Bounds → c.eightBit)) →
        ∃ N o1 o2,
          (∀ fuel, N ≤ fuel →
            ConvertImage maxAlloc fuel input (Processor.ofKdTree P) = .returns o1 ∧
            ConvertImage maxAlloc fuel input (Processor.ofNaive P) = .returns o2) ∧
          o1.Rect = o2.Rect ∧
          ∀ x y, (Point.mk x y).In input.Bounds →
            ∃ c, input.At x y = .returns (some c) ∧
              colorDistance c (o1.At x y) = colorDistance c (o2.At x y) ∧
              ∀ p ∈ P, colorDistance c (o1.At x y) ≤ colorDistance c p := by
  have key : ∀ c : Color, c.eightBit → ∃ r1 r2, NewKdTreeProcessor P c = some r1 ∧
      NewNaiveProcessor P c = some r2 ∧ r1.isSolid ∧ r2.solid8 ∧
      colorDistance c r1 = colorDistance c r2 ∧
      ∀ p ∈ P, colorDistance c r1 ≤ colorDistance c p := by
    intro c hc
    obtain ⟨r1, e1, s1, ⟨p1, hp1, a1⟩, min1⟩ := kdTree_Convert_spec P c hne hP
    obtain ⟨r2, e2, m2, min2⟩ := naive_Convert_spec P c hne hc hP
    have h1 : colorDistance c r1 = colorDistance c p1 := by
      unfold colorDistance; rw [a1]
    exact ⟨r1, r2, e1, e2, s1, hP r2 m2,
      Nat.le_antisymm (min1 r2 m2) (by rw [h1]; exact min2 p1 hp1), min1⟩
  constructor
  · intro c hc
    obtain ⟨r1, r2, e1, e2, _, _, h, hmin⟩ := key c hc
    exact ⟨r1, r2, e1, e2, h, hmin⟩
  · intro input hbuf hmax hin
    obtain ⟨N1, o1, ho1, hr1, hat1⟩ := ConvertImage_spec maxAlloc input (Processor.ofKdTree P)
      hbuf hmax (by
        intro x y h1 h2 h3 h4
        obtain ⟨c, hA, _⟩ := hin x y h1 h2 h3 h4
        obtain ⟨r1, e1, _⟩ := kdTree_Convert_spec P c hne hP
        exact ⟨some c, some r1, hA, by simp [Processor.ofKdTree, e1], fun _ => by simp⟩)
    obtain ⟨N2, o2, ho2, hr2, hat2⟩ := ConvertImage_spec maxAlloc input (Processor.ofNaive P)
      hbuf hmax (by
        intro x y h1 h2 h3 h4
        obtain ⟨c, hA, _⟩ := hin x y h1 h2 h3 h4
        obtain ⟨r2, e2⟩ := naive_Convert_some P c hne
        exact ⟨some c, some r2, hA, by simp [Processor.ofNaive, e2], fun _ => by simp⟩)
    refine ⟨N1 + N2, o1, o2, fun fuel hf => ⟨ho1 fuel (by omega), ho2 fuel (by omega)⟩,
      by rw [hr1, hr2], ?_⟩
    intro x y h
    have h' := h
    simp only [Point.In] at h'
    obtain ⟨c, hA, hc⟩ := hin x y h'.1 (by omega) h'.2.2.1 (by omega)
    obtain ⟨r1, r2, e1, e2, s1, s2, hd, hmin⟩ := key c (hc h)
    have a1 : o1.At x y = r1 := by
      rw [hat1 x y, if_pos h]
      simp only [convertedPixel, hA, Processor.ofKdTree, e1]
      exact nrgbaModel_solid s1
    have a2 : colorDistance c (o2.At x y) = colorDistance c r2 := by
      rw [hat2 x y, if_pos h]
      simp only [convertedPixel, hA, Processor.ofNaive, e2]
      unfold colorDistance
      rw [colorToArray_nrgbaModel s2]
    refine ⟨c, hA, ?_, ?_⟩
    · rw [a1, a2]; exact hd
    · rw [a1]; exact hmin

theorem kdTree_naive_same_distance_witness :
    (∀ c : Color, c.eightBit → ∃ r1 r2,
        NewKdTreeProcessor [solid 255 255 255, solid 0 0 0] c = some r1 ∧
        NewNaiveProcessor [solid 255 255 255, solid 0 0 0] c = some r2 ∧
        colorDistance c r1 = colorDistance c r2 ∧
        ∀ p ∈ [solid 255 255 255, solid 0 0 0], colorDistance c r1 ≤ colorDistance c p) ∧
      ∃ N o1 o2,
        (∀ fuel, N ≤ fuel →
          ConvertImage fourGiB fuel blackSquare (Processor.ofKdTree [solid 255 255 255, solid 0 0 0])
            = .returns o1 ∧
          ConvertImage fourGiB fuel blackSquare (Processor.ofNaive [solid 255 255 255, solid 0 0 0])
            = .returns o2) ∧
        o1.Rect = o2.Rect ∧
        ∀ x y, (Point.mk x y).In blackSquare.Bounds →
          ∃ c, blackSquare.At x y = .returns (some c) ∧
            colorDistance c (o1.At x y) = colorDistance c (o2.At x y) ∧
            ∀ p ∈ [solid 255 255 255, solid 0 0 0],
              colorDistance c (o1.At x y) ≤ colorDistance c p :=
  ⟨(kdTree_naive_same_distance fourGiB [solid 255 255 255, solid 0 0 0] (by decide) (by decide)).1,
   (kdTree_naive_same_distance fourGiB [solid 255 255 255, solid 0 0 0] (by decide) (by decide)).2
     blackSquare (by decide) (by decide)
     (fun _ _ _ _ _ _ => ⟨solid 0 0 0, rfl, fun _ => by decide⟩)⟩

/-- C4 as stated fails for colours that are not 8-bit.  With the palette
`{0,0,0,255}`, `{1,0,0,255}` and the translucent colour `{1,0,0,253}` the k-d
tree processor returns the first entry and the naive one the second, at
different distances from the colour, over the 8-bit channels `colorToArray`
gives (4 against 5) and over the channels as stored (5 against 4).  With the
palette `{0,1,1,255}`, `{0,2,1,255}` and the opaque 16-bit colour of channels
`(0, 439, 257, 0xffff)` the k-d tree processor returns the first entry and the
naive one the second, at distances 0 and 1.  With the palette of the opaque
16-bit colours of red channel `255` and `511` and the colour `{1,0,0,255}` the
k-d tree processor returns `{1,0,0,255}` and the naive one the first entry, at
distances 0 and 1. -/
theorem kdTree_naive_not_8bit_counterexample :
    (NewKdTreeProcessor [solid 0 0 0, solid 1 0 0] (.nrgba ⟨1, 0, 0, 253⟩)
          = some (solid 0 0 0) ∧
        NewNaiveProcessor [solid 0 0 0, solid 1 0 0] (.nrgba ⟨1, 0, 0, 253⟩)
          = some (solid 1 0 0) ∧
        colorDistance (.nrgba ⟨1, 0, 0, 253⟩) (solid 0 0 0)
          ≠ colorDistance (.nrgba ⟨1, 0, 0, 253⟩) (solid 1 0 0) ∧
        distance (NRGBA.channels ⟨1, 0, 0, 253⟩) (NRGBA.channels ⟨0, 0, 0, 255⟩)
          ≠ distance (NRGBA.channels ⟨1, 0, 0, 253⟩) (NRGBA.channels ⟨1, 0, 0, 255⟩)) ∧
      (NewKdTreeProcessor [solid 0 1 1, solid 0 2 1] (.other 0 439 257 0xffff)
          = some (solid 0 1 1) ∧
        NewNaiveProcessor [solid 0 1 1, solid 0 2 1] (.other 0 439 257 0xffff)
          = some (solid 0 2 1) ∧
        colorDistance (.other 0 439 257 0xffff) (solid 0 1 1) = 0 ∧
        colorDistance (.other 0 439 257 0xffff) (solid 0 2 1) = 1) ∧
      (NewKdTreeProcessor [.other 255 0 0 0xffff, .other 511 0 0 0xffff] (solid 1 0 0)
          = some (solid 1 0 0) ∧
        NewNaiveProcessor [.other 255 0 0 0xffff, .other 511 0 0 0xffff] (solid 1 0 0)
          = some (.other 255 0 0 0xffff) ∧
        colorDistance (solid 1 0 0) (solid 1 0 0) = 0 ∧
        colorDistance (solid 1 0 0) (.other 255 0 0 0xffff) = 1) := by
  decide

theorem solid8_sqSum_zero {c v : Color} (hc : c.solid8) (hv : v.solid8)
    (h : sqSum c v = 0) : v.RGBA = c.RGBA := by
  obtain ⟨e, _⟩ := cost_form c v hc.1 hv
  obtain ⟨⟨c1, c2, c3⟩, ca⟩ := hc
  obtain ⟨⟨v1, v2, v3⟩, va⟩ := hv
  rw [e] at h
  have hz : rgbDist c v = 0 := by omega
  unfold rgbDist at hz
  have h1 : Nat.dist (c.RGBA.1 / 257) (v.RGBA.1 / 257) ^ 2 = 0 := by omega
  have h2 : Nat.dist (c.RGBA.2.1 / 257) (v.RGBA.2.1 / 257) ^ 2 = 0 := by omega
  have h3 : Nat.dist (c.RGBA.2.2.1 / 257) (v.RGBA.2.2.1 / 257) ^ 2 = 0 := by omega
  have e1 := Nat.eq_of_dist_eq_zero (pow_eq_zero_iff (by decide) |>.1 h1)
  have e2 := Nat.eq_of_dist_eq_zero (pow_eq_zero_iff (by decide) |>.1 h2)
  have e3 := Nat.eq_of_dist_eq_zero (pow_eq_zero_iff (by decide) |>.1 h3)
  refine Prod.ext ?_ (Prod.ext ?_ (Prod.ext ?_ ?_))
  · show v.RGBA.1 = c.RGBA.1
    omega
  · show v.RGBA.2.1 = c.RGBA.2.1
    omega
  · show v.RGBA.2.2.1 = c.RGBA.2.2.1
    omega
  · show v.RGBA.2.2.2 = c.RGBA.2.2.2
    omega

theorem sqSum_self (c : Color) : sqSum c c = 0 := by
  rw [(sqSum_eq c c).1]
  simp

theorem naive_Convert_member8 {P : List Color} {c : Color} (hP : ∀ p ∈ P, p.solid8)
    (hc : c ∈ P) : ∃ v, NewNaiveProcessor P c = some v ∧ v ∈ P ∧ v.RGBA = c.RGBA := by
  obtain ⟨k, v, hk, e, hmin, _⟩ := Palette_Convert_spec P c (List.ne_nil_of_mem hc)
  have hv : v ∈ P := List.getElem?_mem hk
  have h0 := hmin c hc
  rw [sqSum_self] at h0
  exact ⟨v, e, hv, solid8_sqSum_zero (hP c hc) (hP v hv) (by omega)⟩

theorem nrgbaModel_solid8 {v : Color} (hv : v.solid8) :
    (Color.nrgba (nrgbaModel v)).isSolid ∧ (Color.nrgba (nrgbaModel v)).RGBA = v.RGBA := by
  cases v with
  | nrgba n =>
    refine ⟨?_, rfl⟩
    have ha : n.A.val ||| (n.A.val <<< 8) = 65535 := hv.2
    rw [or_shl8 _ n.A.isLt] at ha
    show n.A = 255
    apply Fin.ext
    show n.A.val = 255
    omega
  | other r g b a =>
    obtain ⟨⟨h1, h2, h3⟩, ha⟩ := hv
    have ha' : a.val = 65535 := ha
    have h1' : r.val % 257 = 0 := h1
    have h2' : g.val % 257 = 0 := h2
    have h3' : b.val % 257 = 0 := h3
    have hr := r.isLt
    have hg := g.isLt
    have hb := b.isLt
    have e : ∀ x : Nat, x < 65536 → x % 257 = 0 → 257 * (toUint8 (x >>> 8)).val = x := by
      intro x hx hm
      rw [shift_of_mod hm (by omega)]
      simp only [toUint8]
      omega
    have hm : nrgbaModel (.other r g b a) =
        ⟨toUint8 (r.val >>> 8), toUint8 (g.val >>> 8), toUint8 (b.val >>> 8), 255⟩ := by
      simp [nrgbaModel, ha']
    rw [hm]
    refine ⟨rfl, ?_⟩
    show (solid _ _ _).RGBA = _
    rw [RGBA_solid, e _ hr h1', e _ hg h2', e _ hb h3']
    simp only [Color.RGBA, ha']

theorem isSolid_eq_of_RGBA {a b : Color} (ha : a.isSolid) (hb : b.isSolid)
    (h : a.RGBA = b.RGBA) : a = b := by
  obtain ⟨r, g, b', rfl⟩ := isSolid_iff ha
  obtain ⟨r', g', b'', rfl⟩ := isSolid_iff hb
  rw [RGBA_solid, RGBA_solid] at h
  have h1 : 257 * r.val = 257 * r'.val := congrArg Prod.fst h
  have h2 : 257 * g.val = 257 * g'.val := congrArg (fun t => t.2.1) h
  have h3 : 257 * b'.val = 257 * b''.val := congrArg (fun t => t.2.2.1) h
  rw [Fin.ext (by omega : r.val = r'.val), Fin.ext (by omega : g.val = g'.val),
    Fin.ext (by omega : b'.val = b''.val)]

/-- C5 for opaque palettes, on the images on which the call returns.  For every
palette `P` of opaque 8-bit colours and every image in which every pixel is a
member of `P`, whose bounds end below the largest `int`, for which
`image.NewNRGBA` returns and whose `At` returns a colour at every coordinate the
loops visit, `NewNaiveProcessor(P).ConvertImage(image)` returns an image with the
bounds of the input in which the pixel at every coordinate inside the image is
the colour of the input pixel (the same `RGBA()` channels), and is identical to
the input pixel when that is a `color.NRGBA`. -/
theorem naive_ConvertImage_idempotent (maxAlloc : Int) (P : List Color)
    (hP : ∀ p ∈ P, p.solid8)
    (input : Image) (hbuf : (NewNRGBA maxAlloc input.Bounds).isSome)
    (hmax : input.Bounds.Max.X < maxInt ∧ input.Bounds.Max.Y < maxInt)
    (hin : ∀ x y, (Point.mk x y).In input.Bounds →
      ∃ c ∈ P, input.At x y = .returns (some c))
    (hat : ∀ x y, input.Bounds.Min.X ≤ x → x ≤ input.Bounds.Max.X →
      input.Bounds.Min.Y ≤ y → y ≤ input.Bounds.Max.Y →
      ∃ c, input.At x y = .returns (some c)) :
    ∃ N out, (∀ fuel, N ≤ fuel →
        ConvertImage maxAlloc fuel input (Processor.ofNaive P) = .returns out) ∧
      out.Rect = input.Bounds ∧
      ∀ x y, (Point.mk x y).In input.Bounds →
        ∃ c, input.At x y = .returns (some c) ∧ (out.At x y).RGBA = c.RGBA ∧
          (c.isSolid → out.At x y = c) := by
  obtain ⟨N, o, ho, hr, hpix⟩ := ConvertImage_spec maxAlloc input (Processor.ofNaive P)
    hbuf hmax (by
      intro x y h1 h2 h3 h4
      obtain ⟨c, hA⟩ := hat x y h1 h2 h3 h4
      refine ⟨some c, NewNaiveProcessor P c, hA, rfl, ?_⟩
      intro hI
      obtain ⟨c', hc', hA'⟩ := hin x y hI
      rw [hA] at hA'
      cases hA'
      obtain ⟨v, ev, _⟩ := naive_Convert_member8 hP hc'
      rw [ev]
      simp)
  refine ⟨N, o, ho, hr, ?_⟩
  intro x y h
  obtain ⟨c, hc, hA⟩ := hin x y h
  obtain ⟨v, ev, hv, hvc⟩ := naive_Convert_member8 hP hc
  obtain ⟨s1, s2⟩ := nrgbaModel_solid8 (hP v hv)
  have e : o.At x y = .nrgba (nrgbaModel v) := by
    rw [hpix x y, if_pos h]
    simp only [convertedPixel, hA, Processor.ofNaive, ev]
  refine ⟨c, hA, by rw [e, s2, hvc], ?_⟩
  intro hs
  rw [e]
  exact isSolid_eq_of_RGBA s1 hs (by rw [s2, hvc])

theorem naive_ConvertImage_idempotent_witness :
    ∃ N out, (∀ fuel, N ≤ fuel →
        ConvertImage fourGiB fuel blackSquare
          (Processor.ofNaive [solid 255 255 255, solid 0 0 0]) = .returns out) ∧
      out.Rect = blackSquare.Bounds ∧
      ∀ x y, (Point.mk x y).In blackSquare.Bounds →
        ∃ c, blackSquare.At x y = .returns (some c) ∧ (out.At x y).RGBA = c.RGBA ∧
          (c.isSolid → out.At x y = c) :=
  naive_ConvertImage_idempotent fourGiB [solid 255 255 255, solid 0 0 0] (by decide)
    blackSquare (by decide) (by decide)
    (fun _ _ _ => ⟨solid 0 0 0, by decide, rfl⟩)
    (fun _ _ _ _ _ _ => ⟨solid 0 0 0, rfl⟩)

/-- C5 as stated fails for a palette with translucent entries: with the palette
`{0,0,0,0}`, `{255,255,255,0}` and the one-pixel image of the colour
`{255,255,255,0}`, a member of the palette, the output pixel is `{0,0,0,0}`. -/
theorem naive_ConvertImage_translucent_counterexample :
    clearPixel.At 0 0 = .returns (some (.nrgba ⟨255, 255, 255, 0⟩)) ∧
      Color.nrgba ⟨255, 255, 255, 0⟩ ∈
        [Color.nrgba ⟨0, 0, 0, 0⟩, Color.nrgba ⟨255, 255, 255, 0⟩] ∧
      (Point.mk 0 0).In clearPixel.Bounds ∧
      (ConvertImage fourGiB 3 clearPixel
          (Processor.ofNaive [.nrgba ⟨0, 0, 0, 0⟩, .nrgba ⟨255, 255, 255, 0⟩])).map
          (fun out => out.At 0 0) = .returns (.nrgba ⟨0, 0, 0, 0⟩) := by
  decide

theorem pixelStep_ofNaive (P : List Color) (hne : P ≠ []) (input : Image)
    (hat : ∀ x y, ∃ c, input.At x y = .returns (some c)) (x y : Int) (out : NRGBAImage) :
    pixelStep (Processor.ofNaive P) input x y out ≠ none := by
  obtain ⟨c, hA⟩ := hat x y
  obtain ⟨r, hr⟩ := naive_Convert_some P c hne
  simp only [pixelStep, hA, Processor.ofNaive, hr, NRGBAImage.Set]
  split <;> simp

/-- C10: the extra iterations are not without effect.  On the one-pixel image
of bounds `(MaxInt-1, 0)-(MaxInt, 1)`, with the naive processor of the palette
of white alone, the test `x <= Max.X` never fails, `x++` wraps around, and
`ConvertImage` does not return within any number of tests, while the loop over
the half-open ranges returns the image of one white pixel.  On the one-pixel
image whose `At` panics outside its bounds, `ConvertImage` panics, in
`input.At(0, 1)`, while the loop over the half-open ranges returns the image of
one white pixel. -/
theorem ConvertImage_extra_iterations :
    (∀ fuel, (ConvertImage fourGiB fuel edgePixel (Processor.ofNaive [solid 255 255 255])).map
        (fun _ => ()) = .unfinished) ∧
      (ConvertImageHalfOpen fourGiB 2 edgePixel (Processor.ofNaive [solid 255 255 255])).map
          (fun out => (out.Rect, out.At 9223372036854775806 0))
        = .returns (edgePixel.Bounds, solid 255 255 255) ∧
      (ConvertImage fourGiB 2 strictPixel (Processor.ofNaive [solid 255 255 255])).map
          (fun _ => ()) = .panics ∧
      strictPixel.At 0 1 = .panics ∧
      (ConvertImageHalfOpen fourGiB 2 strictPixel (Processor.ofNaive [solid 255 255 255])).map
          (fun out => (out.Rect, out.At 0 0))
        = .returns (strictPixel.Bounds, solid 255 255 255) := by
  refine ⟨?_, by decide, by decide, by decide, by decide⟩
  intro fuel
  have hnew : NewNRGBA fourGiB edgePixel.Bounds
      = some ⟨edgePixel.Bounds, fun _ _ => ⟨0, 0, 0, 0⟩⟩ := by
    have hlen : pixelBufferLength 4 edgePixel.Bounds = some 4 := by decide
    unfold NewNRGBA
    rw [hlen]
    rfl
  unfold ConvertImage
  rw [hnew]
  simp only []
  rw [xLoop_unfinished (Processor.ofNaive [solid 255 255 255]) edgePixel fuel (by decide)
    (pixelStep_ofNaive _ (by decide) edgePixel (fun _ _ => ⟨_, rfl⟩)) fuel _ _ (by decide)]
  rfl

end Processing
